import Mathlib

/-!
A verification development for the `libtest2-harness` test-execution engine
(crates/libtest2-harness).  The definitions below are a shallow embedding of
`harness.rs` (discovery, filtering, sequential and concurrent execution,
exit codes), `shuffle.rs` (the deterministic shuffler) and the parts of
`notify/mod.rs`, `case.rs` and `state.rs` they depend on.

Modelling conventions:
* machine integers (`u64`) are `Nat` with explicit `% 2^64` where the
  codomain matters;
* wall-clock readings (`Instant::now`, `SystemTime::now`) are passed in as
  explicit parameters; `Elapsed` payloads of events are omitted since no
  property here concerns timing;
* the standard library hash (`DefaultHasher`, whose implementation lives in
  Rust's `std`, not in this repository) is an abstract parameter `HashFn`;
* the nondeterminism of the concurrent scheduler (the arrival order of
  worker messages on the mpsc channel, and the visibility of relaxed
  atomic stores by not-yet-joined workers) is made explicit through oracle
  parameters `sched : Nat → Nat` and `race : Nat → Bool`.
-/

namespace Libtest

/-! ## Events and outcomes (`notify/mod.rs`, `case.rs`) -/

/-- `notify::RunStatus`: the non-pass statuses of a completed case. -/
inductive RunStatus
  | Ignored
  | Failed
  deriving DecidableEq

/-- `notify::RunMode`. -/
inductive RunMode
  | Test
  | Bench
  deriving DecidableEq

/-- `notify::Event`, without the `Elapsed` payloads (timing is not modelled).
`CaseComplete.status = none` means the case passed. -/
inductive Event
  | DiscoverStart
  | DiscoverCase (name : String) (mode : RunMode) (run : Bool)
  | DiscoverComplete (seed : Option Nat)
  | SuiteStart
  | CaseStart (name : String)
  | CaseComplete (name : String) (mode : RunMode) (status : Option RunStatus)
      (message : Option String)
  | SuiteComplete
  deriving DecidableEq

/-- `RunError` from `case.rs`: either a failure with a displayable cause, or a
dynamic ignore with an optional reason.  The `Fail` payload is modelled by the
string it displays. -/
inductive RunError
  | failed (msg : String)
  | ignored (reason : Option String)
  deriving DecidableEq

/-- Modelled from the spec: `RunError::status` (referenced by `run_case` in
`harness.rs` but not itself under `src/`): an `Outcome` of `Failed{..}` maps
to the `failed` status and `Ignored{..}` to the `ignored` status. -/
def RunError.status : RunError → RunStatus
  | .failed _ => .Failed
  | .ignored _ => .Ignored

/-- Modelled from the spec: `RunError::cause` (referenced by `run_case` in
`harness.rs` but not itself under `src/`): the displayable message of a
failure (`Failed{message}`), or the optional reason of an ignore
(`Ignored{reason}`). -/
def RunError.cause : RunError → Option String
  | .failed msg => some msg
  | .ignored reason => reason

/-- The behaviour of one case body, as a function of the `run_ignored` flag
the body can observe through `State` (`state.rs`): it either terminates
normally with `Ok`/`Err` (`normal`), or panics with an optional
string payload (`panics`). -/
inductive BodyResult
  | normal (r : Option RunError)
  | panics (payload : Option String)

/-- One registered test case (`Case` in `case.rs`): a unique name, a body,
and whether the worker thread running it panics *after* `run_case` has
already sent its events (the situation `RunningTest::join` detects). -/
structure CaseSpec where
  name : String
  body : Bool → BodyResult
  panicsAfterReport : Bool := false

/-- `libtest_lexarg::RunIgnored`. -/
inductive RunIgnored
  | No
  | Yes
  | Only
  deriving DecidableEq

/-- The slice of `libtest_lexarg::TestOpts` consumed by `harness.rs`.
`testThreads = none` means "run sequentially" (the `threads` feature off or
no parallelism available). -/
structure TestOpts where
  filters : List String := []
  skip : List String := []
  filterExact : Bool := false
  runIgnored : RunIgnored := .No
  shuffle : Bool := false
  shuffleSeed : Option Nat := none
  failFast : Bool := false
  list : Bool := false
  testThreads : Option Nat := none

/-! ## Substring containment and string order

`str::contains` and the `String` ordering used by `sort_unstable_by_key`
are embedded as executable functions on `List Char` (for valid UTF-8,
byte-wise substring search and byte-wise lexicographic order coincide with
the character-wise versions). -/

/-- `needle.isPrefixOf haystack` on character lists. -/
def isPrefixCh : List Char → List Char → Bool
  | [], _ => true
  | _ :: _, [] => false
  | a :: as, b :: bs => a == b && isPrefixCh as bs

/-- Substring containment: `pat` occurs contiguously inside `s`
(`str::contains`). -/
def isInfixCh (pat : List Char) : List Char → Bool
  | [] => isPrefixCh pat []
  | c :: rest => isPrefixCh pat (c :: rest) || isInfixCh pat rest

/-- `test_name.contains(filter)` from `matches_filter` in `harness.rs`. -/
def strContains (s pat : String) : Bool :=
  isInfixCh pat.data s.data

/-- Boolean lexicographic order on character lists (the order `String`'s
`Ord` instance gives in Rust). -/
def charListLe : List Char → List Char → Bool
  | [], _ => true
  | _ :: _, [] => false
  | a :: as, b :: bs => if a < b then true else if b < a then false else charListLe as bs

/-- `a <= b` for strings, lexicographically. -/
def strLe (a b : String) : Bool :=
  charListLe a.data b.data

/-! ## Filtering (`discover` in `harness.rs`, lines 179–205) -/

/-- The `matches_filter` closure in `discover`: exact string equality when
`--exact` is set, substring containment otherwise. -/
def matchesFilter (opts : TestOpts) (testName filter : String) : Bool :=
  match opts.filterExact with
  | true => testName == filter
  | false => strContains testName filter

/-- The per-case retention decision in `discover`: `filtered_in` (no filters,
or some filter matches) and not `filtered_out` (non-empty skip list with some
skip pattern matching). -/
def retainCase (opts : TestOpts) (testName : String) : Bool :=
  let filteredIn := opts.filters.isEmpty
    || opts.filters.any (fun filter => matchesFilter opts testName filter)
  let filteredOut := !opts.skip.isEmpty
    && opts.skip.any (fun sf => matchesFilter opts testName sf)
  filteredIn && !filteredOut

/-- The match rule as the spec words it (§4.1): exact equality under the
`exact` option, otherwise "substring containment" read literally as the
existence of a decomposition.  Used only to compare `retainCase` against the
spec's selection rule. -/
def specMatches (exact : Bool) (testName pattern : String) : Prop :=
  if exact then testName = pattern
  else ∃ pre post, testName.data = pre ++ pattern.data ++ post

/-- The spec's selection rule (§4.1): selected iff (filters empty OR some
filter matches) AND no skip pattern matches. -/
def specSelected (opts : TestOpts) (testName : String) : Prop :=
  (opts.filters = [] ∨ ∃ f ∈ opts.filters, specMatches opts.filterExact testName f)
  ∧ ¬ ∃ sk ∈ opts.skip, specMatches opts.filterExact testName sk

/-! ## Shuffling (`shuffle.rs`) -/

/-- Modelled from the spec: the repository hashes with
`std::collections::hash_map::DefaultHasher` (`calculate_hash` in
`shuffle.rs`), whose implementation lives in Rust's `std`, not in this
repository; the spec (§4.2) only requires *some* fixed hash-based generator.
It is therefore kept abstract: `hashPair` models `calculate_hash` of a
`(u64, u64)` tuple and `hashNames` models `calculate_hash` of the ordered
case-name sequence. -/
structure HashFn where
  hashPair : Nat → Nat → Nat
  hashNames : List String → Nat

/-- The `Rng` of `shuffle.rs`: a current state and the auxiliary constant
`extra` it is re-hashed with on every draw. -/
structure Rng where
  state : Nat
  extra : Nat

/-- `Rng::rand_u64`: re-hash `(state, extra)`, store and return the result
(a `u64`, hence the `% 2^64`). -/
def Rng.randU64 (H : HashFn) (r : Rng) : Nat × Rng :=
  let s := H.hashPair r.state r.extra % 2 ^ 64
  (s, { r with state := s })

/-- `Rng::rand_range`: the next pseudo-random value reduced into
`[lo, hi)`. -/
def Rng.randRange (H : HashFn) (r : Rng) (lo hi : Nat) : Nat × Rng :=
  let (v, r') := r.randU64 H
  (v % (hi - lo) + lo, r')

/-- `slice.swap(i, j)` on lists (identity when an index is out of range;
`shuffle` only ever swaps in range). -/
def swapList (l : List α) (i j : Nat) : List α :=
  match l[i]?, l[j]? with
  | some a, some b => (l.set i b).set j a
  | _, _ => l

/-- The loop of `shuffle` (from `rust-analyzer`, reproduced in
`shuffle.rs`): `for i in 0..slice.len() { randomize_first(rng, &mut slice[i..]) }`,
where `randomize_first` draws `idx ∈ [0, remaining)` and swaps.  The first
argument counts the remaining iterations (`slice.len() - i`), making the
recursion structural. -/
def shuffleSteps (H : HashFn) : Nat → Rng → List α → Nat → List α
  | 0, _, l, _ => l
  | k + 1, r, l, i =>
      let (idx, r') := r.randRange H 0 (l.length - i)
      shuffleSteps H k r' (swapList l i (i + idx)) (i + 1)

/-- `shuffle(rng, slice)`. -/
def shuffle (H : HashFn) (r : Rng) (l : List α) : List α :=
  shuffleSteps H l.length r l 0

/-- `shuffle_tests`: hash the ordered name sequence, seed the `Rng` with
`(shuffle_seed, names_hash)` and run the Fisher–Yates loop. -/
def shuffleTests (H : HashFn) (shuffleSeed : Nat) (tests : List CaseSpec) : List CaseSpec :=
  let testNames := tests.map (·.name)
  let testNamesHash := H.hashNames testNames
  shuffle H ⟨shuffleSeed, testNamesHash⟩ tests

/-- `get_shuffle_seed`: the explicit `--shuffle-seed` wins; otherwise, when
`--shuffle` is set, the current time in nanoseconds cast to `u64` (`now` is
that reading, passed in explicitly). -/
def getShuffleSeed (now : Nat) (opts : TestOpts) : Option Nat :=
  match opts.shuffleSeed with
  | some s => some s
  | none => if opts.shuffle then some (now % 2 ^ 64) else none

/-! ## Discovery (`discover` in `harness.rs`) -/

/-- Insert a case into a name-sorted list. -/
def insertByName (c : CaseSpec) : List CaseSpec → List CaseSpec
  | [] => [c]
  | d :: rest => if strLe c.name d.name then c :: d :: rest else d :: insertByName c rest

/-- Models `cases.sort_unstable_by_key(|case| case.name().to_owned())`: the
source promises some permutation with ascending names (the relative order of
equal names is unspecified — unstable sort); insertion sort realizes one such
permutation. -/
def sortCases : List CaseSpec → List CaseSpec
  | [] => []
  | c :: rest => insertByName c (sortCases rest)

/-- The result of `discover`: the emitted events, the retained (selected)
cases, and the effective shuffle seed. -/
structure DiscoverResult where
  events : List Event
  selected : List CaseSpec
  seed : Option Nat

/-- `discover`: sort by name, resolve the shuffle seed and shuffle if one is
present, then emit one `DiscoverCase` per case (with its retention flag),
retain the selected cases, and emit `DiscoverComplete` carrying the seed. -/
def discover (H : HashFn) (now : Nat) (opts : TestOpts) (cases : List CaseSpec) :
    DiscoverResult :=
  let sorted := sortCases cases
  let seed := getShuffleSeed now opts
  let shuffled := match seed with
    | some s => shuffleTests H s sorted
    | none => sorted
  { events := Event.DiscoverStart
      :: (shuffled.map (fun c => Event.DiscoverCase c.name .Test (retainCase opts c.name))
          ++ [Event.DiscoverComplete seed])
    selected := shuffled.filter (fun c => retainCase opts c.name)
    seed := seed }

/-! ## Running one case (`run_case` in `harness.rs`) -/

/-- The message `run_case` synthesizes from a panic payload: the payload is a
`String`/`&str` (`"test panicked: {payload}"`) or something else
(`"test panicked"`). -/
def panicMessage : Option String → String
  | some payload => "test panicked: " ++ payload
  | none => "test panicked"

/-- The outcome `run_case` computes: the body's own result, with an abnormal
termination caught by `catch_unwind` and coerced to a failure carrying the
synthesized message. -/
def runCaseOutcome (runIg : Bool) (c : CaseSpec) : Option RunError :=
  match c.body runIg with
  | .normal r => r
  | .panics payload => some (.failed (panicMessage payload))

/-- `err.map(|e| e.status())` in `run_case`. -/
def runCaseStatus (runIg : Bool) (c : CaseSpec) : Option RunStatus :=
  (runCaseOutcome runIg c).map RunError.status

/-- `err.and_then(|e| e.cause().map(..))` in `run_case`. -/
def runCaseMessage (runIg : Bool) (c : CaseSpec) : Option String :=
  (runCaseOutcome runIg c).bind RunError.cause

/-- The two events `run_case` sends to its notifier, in order. -/
def runCaseEvents (runIg : Bool) (c : CaseSpec) : List Event :=
  [.CaseStart c.name,
   .CaseComplete c.name .Test (runCaseStatus runIg c) (runCaseMessage runIg c)]

/-- `run_case`'s return value: `status != Some(RunStatus::Failed)`. -/
def runCaseSuccess (runIg : Bool) (c : CaseSpec) : Bool :=
  !(runCaseStatus runIg c == some .Failed)

/-- `run_ignored` as computed in `run`: `Yes | Only => true`, `No => false`. -/
def runIgnoredFlag : RunIgnored → Bool
  | .Yes => true
  | .Only => true
  | .No => false

/-! ## Sequential mode (`run` in `harness.rs`, else-branch) -/

/-- The sequential loop: run each case in order, accumulating
`success &= run_case(..)`, stopping early when `fail_fast` is set and
`success` has become false. -/
def runSeq (runIg failFast : Bool) : List CaseSpec → Bool → List Event × Bool
  | [], success => ([], success)
  | c :: rest, success =>
      let success1 := success && runCaseSuccess runIg c
      if !success1 && failFast then (runCaseEvents runIg c, success1)
      else
        let (evs, success2) := runSeq runIg failFast rest success1
        (runCaseEvents runIg c ++ evs, success2)

/-! ## Concurrent mode (`run` in `harness.rs`, threaded branch)

Each worker runs `run_case` to completion, sending its events through the
mpsc channel (`SenderNotifier`); the coordinator launches workers up to the
thread limit, receives the next event, joins and removes the worker on its
`CaseComplete`, notifies, and re-reads the shared success flag.  A worker's
full event sequence is precomputed in its `outbox`; the channel arrival
order is chosen by the `sched` oracle (any interleaving preserving each
worker's send order), and the `race` oracle decides whether the relaxed
store of a still-running failing worker is already visible to the
coordinator's load.  Thread spawning is assumed to succeed (the
`WouldBlock` synchronous fallback is not modelled). -/

/-- One in-flight worker: its case's name, whether its thread panics after
`run_case` reported (detected by `RunningTest::join`), its `run_case` return
value (what it stores into the shared success flag), and the events it sent
that the coordinator has not yet received. -/
structure Worker where
  wname : String
  panicked : Bool
  caseSuccess : Bool
  outbox : List Event
  deriving DecidableEq

/-- Spawn the worker for a case. -/
def spawnWorker (runIg : Bool) (c : CaseSpec) : Worker :=
  { wname := c.name
    panicked := c.panicsAfterReport
    caseSuccess := runCaseSuccess runIg c
    outbox := runCaseEvents runIg c }

/-- Coordinator state: the FIFO queue of not-yet-started cases, the in-flight
workers (`running_tests`; `pending` is their count), the events notified so
far, the shared success flag as guaranteed visible after joins (`syncS`),
and the coordinator-local `success`. -/
structure CState where
  remaining : List CaseSpec
  workers : List Worker
  emitted : List Event
  syncS : Bool
  success : Bool

/-- `RunningTest::join`: if the worker thread panicked and the case's
`CaseComplete` still records a pass, rewrite it to a failure with the
message `"panicked after reporting success"`. -/
def joinEvent (panicked : Bool) : Event → Event
  | .CaseComplete name mode status message =>
      if panicked && status == none then
        .CaseComplete name mode (some .Failed) (some "panicked after reporting success")
      else
        .CaseComplete name mode status message
  | e => e

/-- The launch loop: `while pending < threads && !remaining.is_empty()`,
pop the front case and spawn its worker. -/
def launchLoop (runIg : Bool) (threads : Nat) :
    List CaseSpec → List Worker → List CaseSpec × List Worker
  | [], ws => ([], ws)
  | c :: rest, ws =>
      if ws.length < threads then
        launchLoop runIg threads rest (ws ++ [spawnWorker runIg c])
      else (c :: rest, ws)

/-- One receive iteration of the coordinating loop: take the next channel
message (the head of the outbox of the worker picked by `choice`); on a
`CaseComplete`, join and remove that worker (by the event's name) and apply
the join rewrite; notify the event; re-read the shared success flag (`race`
says whether a failing still-in-flight worker's store is already visible);
report whether `fail_fast` now breaks the loop.  The two `[]` branches are
unreachable from reachable states. -/
def recvStep (failFast : Bool) (choice : Nat) (race : Bool) (s : CState) : CState × Bool :=
  if s.workers.isEmpty then (s, false)
  else
    let i := choice % s.workers.length
    let w := s.workers.getD i ⟨"", false, true, []⟩
    match w.outbox with
    | [] => ({ s with workers := s.workers.eraseIdx i }, false)
    | e :: rest =>
      match e with
      | .CaseComplete name _ _ _ =>
          let joined := joinEvent w.panicked e
          let ws1 := (s.workers.set i { w with outbox := rest }).eraseP
            (fun x => x.wname == name)
          let syncS1 := s.syncS && w.caseSuccess
          let observed := syncS1 && !(race && ws1.any (fun x => !x.caseSuccess))
          let success1 := s.success && observed
          ({ remaining := s.remaining, workers := ws1, emitted := s.emitted ++ [joined],
             syncS := syncS1, success := success1 }, !success1 && failFast)
      | _ =>
          let ws1 := s.workers.set i { w with outbox := rest }
          let observed := s.syncS && !(race && ws1.any (fun x => !x.caseSuccess))
          let success1 := s.success && observed
          ({ remaining := s.remaining, workers := ws1, emitted := s.emitted ++ [e],
             syncS := s.syncS, success := success1 }, !success1 && failFast)

/-- The coordinating loop: `while pending > 0 || !remaining.is_empty()`,
launch up to the thread limit, receive one message, break on fail-fast.
`fuel` bounds the number of iterations (every reachable run finishes within
`2 * cases.length` iterations, see `concLoop_terminates`). -/
def concLoop (runIg failFast : Bool) (threads : Nat) (sched : Nat → Nat)
    (race : Nat → Bool) : Nat → CState → CState
  | 0, s => s
  | fuel + 1, s =>
      if s.workers.isEmpty && s.remaining.isEmpty then s
      else
        let lw := launchLoop runIg threads s.remaining s.workers
        let s1 : CState := { s with remaining := lw.1, workers := lw.2 }
        let sb := recvStep failFast (sched fuel) (race fuel) s1
        if sb.2 then sb.1 else concLoop runIg failFast threads sched race fuel sb.1

/-! ## `run` and `Harness::main` -/

/-- What `run` produces: the event stream it notified (bracketed by
`SuiteStart`/`SuiteComplete`), its `Ok(success)` value, and (for the
concurrent branch) the final coordinator state. -/
structure RunOutput where
  events : List Event
  success : Bool
  final : CState

/-- `run`: dispatch on `1 < threads` between the threaded coordinator and
the sequential loop (`threads` is `opts.test_threads` defaulted to 1). -/
def run (opts : TestOpts) (sched : Nat → Nat) (race : Nat → Bool) (fuel : Nat)
    (cases : List CaseSpec) : RunOutput :=
  let threads := opts.testThreads.getD 1
  let runIg := runIgnoredFlag opts.runIgnored
  if 1 < threads then
    let sf := concLoop runIg opts.failFast threads sched race fuel
      ⟨cases, [], [], true, true⟩
    ⟨Event.SuiteStart :: sf.emitted ++ [Event.SuiteComplete], sf.success, sf⟩
  else
    let es := runSeq runIg opts.failFast cases true
    ⟨Event.SuiteStart :: es.1 ++ [Event.SuiteComplete], es.2, ⟨[], [], es.1, es.2, es.2⟩⟩

/-- What `Harness::main` produces: the full notified event stream and the
process exit code. -/
structure MainOutput where
  events : List Event
  exitCode : Nat

/-- `Harness::main`: a parse error exits 1 before any discovery; otherwise
discover (emitting discovery events), force sequential mode when exactly one
case survived, skip running under `--list` (exit 0), else run and exit 0 on
success and 101 (`ERROR_EXIT_CODE`) when some case failed. -/
def harnessMain (H : HashFn) (now : Nat) (sched : Nat → Nat) (race : Nat → Bool)
    (fuel : Nat) (parsed : Except String TestOpts) (cases : List CaseSpec) : MainOutput :=
  match parsed with
  | .error _ => ⟨[], 1⟩
  | .ok opts0 =>
      let d := discover H now opts0 cases
      let opts := if d.selected.length == 1
        then { opts0 with testThreads := some 1 } else opts0
      if opts.list then ⟨d.events, 0⟩
      else
        let r := run opts sched race fuel d.selected
        ⟨d.events ++ r.events, if r.success then 0 else 101⟩

/-! ## Event-stream observations (used to state the claims) -/

/-- The name carried by a `DiscoverCase` event. -/
def discoverCaseName : Event → Option String
  | .DiscoverCase n _ _ => some n
  | _ => none

/-- The name carried by a `CaseStart` event. -/
def caseStartName : Event → Option String
  | .CaseStart n => some n
  | _ => none

/-- Whether an event is a `DiscoverCase`. -/
def isDiscoverCase : Event → Bool
  | .DiscoverCase _ _ _ => true
  | _ => false

/-- Whether an event is a `SuiteStart`. -/
def isSuiteStart : Event → Bool
  | .SuiteStart => true
  | _ => false

/-- Whether an event is a `CaseStart`. -/
def isCaseStart : Event → Bool
  | .CaseStart _ => true
  | _ => false

/-- Whether an event is a `CaseStart` or `CaseComplete` for the given case
name. -/
def isCaseEventOf (n : String) : Event → Bool
  | .CaseStart m => m == n
  | .CaseComplete m _ _ _ => m == n
  | _ => false

/-- Whether an event is a `CaseComplete` for the given case name. -/
def isCaseCompleteOf (n : String) : Event → Bool
  | .CaseComplete m _ _ _ => m == n
  | _ => false

/-- Whether an event is a `CaseComplete` whose status is `Failed`. -/
def isFailedComplete : Event → Bool
  | .CaseComplete _ _ (some .Failed) _ => true
  | _ => false

/-- A `CaseComplete` carrying `Failed` with any message other than the join
rewrite's fixed `"panicked after reporting success"`.  Such an event can only
come from `run_case` itself reporting the failure, in which case the worker
also stored `false` into the shared success flag — so, unlike a join-rewritten
completion, it is guaranteed to trip `fail_fast`. -/
def isTripFailed : Event → Bool
  | .CaseComplete _ _ (some .Failed) ms =>
      !(ms == some "panicked after reporting success")
  | _ => false

/-! ## Analysis definitions for the concurrent coordinator -/

/-- The `CaseComplete` event `run_case` sends for a case. -/
def caseCompleteEvent (runIg : Bool) (c : CaseSpec) : Event :=
  .CaseComplete c.name .Test (runCaseStatus runIg c) (runCaseMessage runIg c)

/-- The two case events the coordinator ends up notifying for a case (the
`CaseComplete` as rewritten by `RunningTest::join` when the worker thread
panicked). -/
def expectedStream (runIg : Bool) (c : CaseSpec) : List Event :=
  [Event.CaseStart c.name, joinEvent c.panicsAfterReport (caseCompleteEvent runIg c)]

/-- The sub-stream of events concerning one case name. -/
def caseFilter (n : String) (evs : List Event) : List Event :=
  evs.filter (isCaseEventOf n)

/-- A well-formed in-flight worker for case `c`: correct name, panic flag and
stored success value, and an outbox that is a nonempty suffix of the events
`run_case` sends. -/
def WorkerOk (runIg : Bool) (c : CaseSpec) (w : Worker) : Prop :=
  w.wname = c.name ∧ w.panicked = c.panicsAfterReport
    ∧ w.caseSuccess = runCaseSuccess runIg c
    ∧ (w.outbox = runCaseEvents runIg c ∨ w.outbox = [caseCompleteEvent runIg c])

/-- Names of the in-flight workers. -/
def workerNames (s : CState) : List String := s.workers.map Worker.wname

/-- Names of the still-queued cases. -/
def remainingNames (s : CState) : List String := s.remaining.map CaseSpec.name

/-- The coordinator invariant, relative to the case list `cases` the loop was
started with: the queue is a suffix of `cases`; every worker is well-formed
for one of the cases; worker names are distinct and disjoint from the queue;
per case, the emitted sub-stream is the completed part of its expected
stream (none while queued, everything once neither queued nor in flight);
the shared success flag reflects exactly the joined cases; and the
coordinator-local `success` stays `true` on an all-passing case set. -/
def Inv (runIg : Bool) (cases : List CaseSpec) (s : CState) : Prop :=
  (∃ launched, cases = launched ++ s.remaining)
  ∧ (∀ w ∈ s.workers, ∃ c ∈ cases, WorkerOk runIg c w)
  ∧ (workerNames s).Nodup
  ∧ (∀ w ∈ s.workers, w.wname ∉ remainingNames s)
  ∧ (∀ c ∈ cases, c.name ∈ remainingNames s → caseFilter c.name s.emitted = [])
  ∧ (∀ c ∈ cases, ∀ w ∈ s.workers, w.wname = c.name →
      caseFilter c.name s.emitted ++ w.outbox.map (joinEvent w.panicked)
        = expectedStream runIg c)
  ∧ (∀ c ∈ cases, c.name ∉ remainingNames s → c.name ∉ workerNames s →
      caseFilter c.name s.emitted = expectedStream runIg c)
  ∧ (s.syncS = true ↔ ∀ c ∈ cases, c.name ∉ remainingNames s → c.name ∉ workerNames s →
      runCaseSuccess runIg c = true)
  ∧ (s.workers = [] → s.remaining = [] → s.success = true → s.syncS = true)
  ∧ ((∀ c ∈ cases, runCaseSuccess runIg c = true) → s.success = true)

/-- Termination measure of the coordinating loop: launching moves two queued
units into a two-event outbox, receiving consumes one event. -/
def measureM (s : CState) : Nat :=
  2 * s.remaining.length + (s.workers.map (fun w => w.outbox.length)).sum

/-! # Theorems -/

/-! ### Facts about substring containment -/

theorem isPrefixCh_iff (pat s : List Char) : isPrefixCh pat s = true ↔ pat <+: s := by
  induction pat generalizing s with
  | nil => simp [isPrefixCh, List.nil_prefix]
  | cons a as ih =>
    cases s with
    | nil => simp [isPrefixCh]
    | cons b bs =>
      simp only [isPrefixCh, Bool.and_eq_true, beq_iff_eq, ih, List.cons_prefix_cons]

theorem isInfixCh_iff (pat s : List Char) : isInfixCh pat s = true ↔ pat <:+: s := by
  induction s with
  | nil =>
    simp [isInfixCh, isPrefixCh_iff]
  | cons c rest ih =>
    simp only [isInfixCh, Bool.or_eq_true, isPrefixCh_iff, ih, List.infix_cons_iff]

theorem strContains_iff (s pat : String) :
    strContains s pat = true ↔ ∃ pre post, s.data = pre ++ pat.data ++ post := by
  constructor
  · intro h
    obtain ⟨pre, post, hp⟩ := (isInfixCh_iff pat.data s.data).mp h
    exact ⟨pre, post, by rw [← hp]⟩
  · rintro ⟨pre, post, hp⟩
    exact (isInfixCh_iff pat.data s.data).mpr ⟨pre, post, by rw [hp]⟩

/-! ### Claim C4 -/

/-- **C4**: a pattern matches a case by exact equality when `--exact` is set
and by substring containment otherwise, and a case is selected iff (the
filter list is empty or some filter matches its name) and no skip pattern
matches its name: `retainCase` agrees with the spec's selection rule. -/
theorem retainCase_eq_specSelected (opts : TestOpts) (testName : String) :
    retainCase opts testName = true ↔ specSelected opts testName := by
  have hmatch : ∀ p, matchesFilter opts testName p = true ↔
      specMatches opts.filterExact testName p := by
    intro p
    unfold matchesFilter specMatches
    cases opts.filterExact with
    | true => simp
    | false => simp [strContains_iff]
  unfold retainCase specSelected
  cases hsk : opts.skip with
  | nil =>
    simp [List.isEmpty_iff, List.any_eq_true, hmatch]
  | cons sk sks =>
    simp only [List.isEmpty_iff, Bool.and_eq_true, Bool.or_eq_true, Bool.not_eq_true',
      Bool.and_eq_false_iff, decide_eq_true_eq, List.any_eq_true, hmatch]
    constructor
    · rintro ⟨hin, hout⟩
      refine ⟨?_, ?_⟩
      · rcases hin with h | ⟨f, hf, hm⟩
        · exact Or.inl h
        · exact Or.inr ⟨f, hf, hm⟩
      · rcases hout with h | h
        · simp at h
        · rintro ⟨x, hx, hm⟩
          rcases List.any_eq_false.mp (by simpa using h) x hx with hfalse
          rw [(hmatch x).symm] at hm
          simp [hm] at hfalse
    · rintro ⟨hin, hout⟩
      refine ⟨?_, Or.inr ?_⟩
      · rcases hin with h | ⟨f, hf, hm⟩
        · exact Or.inl h
        · exact Or.inr ⟨f, hf, hm⟩
      · rw [List.any_eq_false]
        intro x hx
        by_contra hc
        exact hout ⟨x, hx, (hmatch x).mp (by simpa using hc)⟩

/-! ### Facts about the shuffler -/

theorem swapList_length (l : List α) (i j : Nat) : (swapList l i j).length = l.length := by
  unfold swapList
  cases l[i]? <;> cases l[j]? <;> simp

theorem swapList_map (f : α → β) (l : List α) (i j : Nat) :
    (swapList l i j).map f = swapList (l.map f) i j := by
  unfold swapList
  cases hi : l[i]? <;> cases hj : l[j]? <;>
    simp [List.getElem?_map, hi, hj, List.map_set]

theorem shuffleSteps_length (H : HashFn) (k : Nat) (r : Rng) (l : List α) (i : Nat) :
    (shuffleSteps H k r l i).length = l.length := by
  induction k generalizing r l i with
  | zero => rfl
  | succ k ih => simp only [shuffleSteps, ih, swapList_length]

theorem shuffleSteps_map (H : HashFn) (f : α → β) (k : Nat) (r : Rng) (l : List α) (i : Nat) :
    (shuffleSteps H k r l i).map f = shuffleSteps H k r (l.map f) i := by
  induction k generalizing r l i with
  | zero => rfl
  | succ k ih =>
    simp only [shuffleSteps, ih, swapList_map, List.length_map]

/-! ### Claim C5 -/

/-- **C5**: the shuffle is a deterministic function of the seed and the
ordered case-name sequence, with no other hidden input: two case lists with
the same name sequence shuffle to the same name sequence, for every hash
function, every seed, and in particular for two runs on the very same
input. -/
theorem shuffleTests_deterministic (H : HashFn) (s : Nat) (t1 t2 : List CaseSpec)
    (hnames : t1.map CaseSpec.name = t2.map CaseSpec.name) :
    (shuffleTests H s t1).map CaseSpec.name = (shuffleTests H s t2).map CaseSpec.name := by
  have hlen : t1.length = t2.length := by
    simpa using congrArg List.length hnames
  unfold shuffleTests shuffle
  rw [shuffleSteps_map, shuffleSteps_map, hnames, hlen]

theorem shuffleTests_deterministic_witness :
    (([⟨"ab", fun _ => .normal none, false⟩, ⟨"c", fun _ => .normal none, false⟩]
        : List CaseSpec).map CaseSpec.name
      = ([⟨"ab", fun _ => .panics none, true⟩, ⟨"c", fun _ => .normal none, false⟩]
        : List CaseSpec).map CaseSpec.name)
    ∧ (shuffleTests ⟨fun a b => a + 2 * b, fun l => l.length⟩ 3
          [⟨"ab", fun _ => .normal none, false⟩, ⟨"c", fun _ => .normal none, false⟩]).map
        CaseSpec.name
      = (shuffleTests ⟨fun a b => a + 2 * b, fun l => l.length⟩ 3
          [⟨"ab", fun _ => .panics none, true⟩, ⟨"c", fun _ => .normal none, false⟩]).map
        CaseSpec.name :=
  ⟨rfl, shuffleTests_deterministic ⟨fun a b => a + 2 * b, fun l => l.length⟩ 3 _ _ rfl⟩

/-! ### Claim C6 -/

/-- **C6**: the shuffler initializes its RNG state from the seed together
with a hash of the ordered case-name sequence; the Fisher–Yates loop's each
index draw re-hashes `(state, extra)` into the next 64-bit value and reduces
it modulo the remaining range; the effective seed is the explicit seed if
present, otherwise (when shuffling is requested) derived from the current
time; and `discover` surfaces the effective seed in `DiscoverComplete`. -/
theorem shuffle_algorithm_characterization (H : HashFn) :
    (∀ (seed : Nat) (tests : List CaseSpec),
        shuffleTests H seed tests
          = shuffleSteps H tests.length ⟨seed, H.hashNames (tests.map CaseSpec.name)⟩ tests 0)
    ∧ (∀ (k : Nat) (r : Rng) (l : List CaseSpec) (i : Nat),
        shuffleSteps H (k + 1) r l i
          = shuffleSteps H k
              ⟨H.hashPair r.state r.extra % 2 ^ 64, r.extra⟩
              (swapList l i (i + H.hashPair r.state r.extra % 2 ^ 64 % (l.length - i)))
              (i + 1))
    ∧ (∀ (now : Nat) (opts : TestOpts) (s : Nat),
        (opts.shuffleSeed = some s → getShuffleSeed now opts = some s)
        ∧ (opts.shuffleSeed = none →
            getShuffleSeed now opts = if opts.shuffle then some (now % 2 ^ 64) else none))
    ∧ (∀ (now : Nat) (opts : TestOpts) (cases : List CaseSpec),
        (discover H now opts cases).seed = getShuffleSeed now opts
        ∧ (discover H now opts cases).events.getLast?
            = some (Event.DiscoverComplete (getShuffleSeed now opts))) := by
  refine ⟨fun seed tests => rfl, fun k r l i => rfl, ?_, ?_⟩
  · intro now opts s
    constructor
    · intro h; simp [getShuffleSeed, h]
    · intro h; simp [getShuffleSeed, h]
  · intro now opts cases
    refine ⟨rfl, ?_⟩
    show (Event.DiscoverStart :: (_ ++ [Event.DiscoverComplete _])).getLast? = _
    rw [← List.cons_append, List.getLast?_concat]

theorem shuffle_algorithm_characterization_witness :
    (({ shuffleSeed := some 5 } : TestOpts).shuffleSeed = some 5)
    ∧ getShuffleSeed 9 { shuffleSeed := some 5 } = some 5 :=
  ⟨rfl,
    ((shuffle_algorithm_characterization ⟨fun a b => a + 2 * b, fun l => l.length⟩).2.2.1
      9 { shuffleSeed := some 5 } 5).1 rfl⟩

/-! ### Facts about the string order and the sort -/

theorem charListLe_cons_iff (a b : Char) (as bs : List Char) :
    charListLe (a :: as) (b :: bs) = true ↔ a < b ∨ (a = b ∧ charListLe as bs = true) := by
  rcases lt_trichotomy a b with h | h | h
  · simp [charListLe, h]
  · subst h
    simp [charListLe, lt_irrefl]
  · simp [charListLe, lt_asymm h, ne_of_gt h, not_le.mpr h]

theorem charListLe_total (l1 l2 : List Char) :
    charListLe l1 l2 = true ∨ charListLe l2 l1 = true := by
  induction l1 generalizing l2 with
  | nil => exact Or.inl rfl
  | cons a as ih =>
    cases l2 with
    | nil => exact Or.inr rfl
    | cons b bs =>
      rcases lt_trichotomy a b with h | h | h
      · exact Or.inl ((charListLe_cons_iff ..).mpr (Or.inl h))
      · subst h
        rcases ih bs with h' | h'
        · exact Or.inl ((charListLe_cons_iff ..).mpr (Or.inr ⟨rfl, h'⟩))
        · exact Or.inr ((charListLe_cons_iff ..).mpr (Or.inr ⟨rfl, h'⟩))
      · exact Or.inr ((charListLe_cons_iff ..).mpr (Or.inl h))

theorem charListLe_trans (l1 l2 l3 : List Char) (h1 : charListLe l1 l2 = true)
    (h2 : charListLe l2 l3 = true) : charListLe l1 l3 = true := by
  induction l1 generalizing l2 l3 with
  | nil => rfl
  | cons a as ih =>
    cases l2 with
    | nil => simp [charListLe] at h1
    | cons b bs =>
      cases l3 with
      | nil => simp [charListLe] at h2
      | cons c cs =>
        rcases (charListLe_cons_iff ..).mp h1 with hab | ⟨hab, hrec1⟩ <;>
          rcases (charListLe_cons_iff ..).mp h2 with hbc | ⟨hbc, hrec2⟩
        · exact (charListLe_cons_iff ..).mpr (Or.inl (hab.trans hbc))
        · exact (charListLe_cons_iff ..).mpr (Or.inl (hbc ▸ hab))
        · exact (charListLe_cons_iff ..).mpr (Or.inl (hab ▸ hbc))
        · exact (charListLe_cons_iff ..).mpr (Or.inr ⟨hab.trans hbc, ih bs cs hrec1 hrec2⟩)

theorem strLe_total (a b : String) : strLe a b = true ∨ strLe b a = true :=
  charListLe_total a.data b.data

theorem strLe_trans (a b c : String) (h1 : strLe a b = true) (h2 : strLe b c = true) :
    strLe a c = true :=
  charListLe_trans a.data b.data c.data h1 h2

/-- The ordering `sortCases` sorts by. -/
def nameLe (a b : CaseSpec) : Prop := strLe a.name b.name = true

theorem insertByName_perm (c : CaseSpec) (l : List CaseSpec) :
    (insertByName c l).Perm (c :: l) := by
  induction l with
  | nil => exact List.Perm.refl _
  | cons d rest ih =>
    unfold insertByName
    by_cases h : strLe c.name d.name = true
    · simp [h]
    · simp only [h, if_false]
      exact (ih.cons d).trans (List.Perm.swap c d rest)

theorem sortCases_perm (l : List CaseSpec) : (sortCases l).Perm l := by
  induction l with
  | nil => exact List.Perm.refl _
  | cons c rest ih =>
    exact (insertByName_perm c (sortCases rest)).trans (ih.cons c)

theorem insertByName_pairwise (c : CaseSpec) (l : List CaseSpec)
    (h : l.Pairwise nameLe) : (insertByName c l).Pairwise nameLe := by
  induction l with
  | nil => simp [insertByName, List.pairwise_cons]
  | cons d rest ih =>
    rcases List.pairwise_cons.mp h with ⟨hd, hrest⟩
    unfold insertByName
    by_cases hcd : strLe c.name d.name = true
    · simp only [hcd, if_true]
      refine List.pairwise_cons.mpr ⟨?_, h⟩
      intro x hx
      rcases List.mem_cons.mp hx with rfl | hx
      · exact hcd
      · exact strLe_trans _ _ _ hcd (hd x hx)
    · simp only [hcd, if_false]
      refine List.pairwise_cons.mpr ⟨?_, ih hrest⟩
      intro x hx
      have hx' := (insertByName_perm c rest).mem_iff.mp hx
      rcases List.mem_cons.mp hx' with rfl | hx'
      · rcases strLe_total x.name d.name with h' | h'
        · exact absurd h' hcd
        · exact h'
      · exact hd x hx'

theorem sortCases_pairwise (l : List CaseSpec) : (sortCases l).Pairwise nameLe := by
  induction l with
  | nil => exact List.Pairwise.nil
  | cons c rest ih => exact insertByName_pairwise c (sortCases rest) ih

/-! ### Facts about the sequential runner -/

theorem runCaseEvents_caseStartNames (runIg : Bool) (c : CaseSpec) :
    (runCaseEvents runIg c).filterMap caseStartName = [c.name] := rfl

/-- The `CaseStart` names a sequential run emits are a prefix of the input
order (all of it when nothing breaks the loop). -/
theorem runSeq_caseStartNames_prefix (runIg failFast : Bool) (l : List CaseSpec) (b : Bool) :
    (runSeq runIg failFast l b).1.filterMap caseStartName <+: l.map CaseSpec.name := by
  induction l generalizing b with
  | nil => exact List.nil_prefix
  | cons c rest ih =>
    unfold runSeq
    by_cases hbr : (!(b && runCaseSuccess runIg c) && failFast) = true
    · simp only [hbr, if_true, List.map_cons, runCaseEvents_caseStartNames]
      exact (List.prefix_cons_inj c.name).mpr List.nil_prefix
    · simp only [hbr, if_false, List.map_cons, List.filterMap_append,
        runCaseEvents_caseStartNames]
      exact (List.prefix_cons_inj c.name).mpr (ih _)

theorem filterMap_some_name (l : List CaseSpec) :
    l.filterMap (fun c => some c.name) = l.map CaseSpec.name := by
  induction l with
  | nil => rfl
  | cons c rest ih => simp [ih]

theorem discover_names_eq (H : HashFn) (now : Nat) (opts : TestOpts) (cases : List CaseSpec)
    (hseed : getShuffleSeed now opts = none) :
    (discover H now opts cases).events.filterMap discoverCaseName
      = (sortCases cases).map CaseSpec.name := by
  simp only [discover, hseed, List.filterMap_cons, List.filterMap_append, List.filterMap_map,
    discoverCaseName, List.filterMap_nil, List.append_nil]
  exact filterMap_some_name (sortCases cases)

theorem discover_selected_eq (H : HashFn) (now : Nat) (opts : TestOpts) (cases : List CaseSpec)
    (hseed : getShuffleSeed now opts = none) :
    (discover H now opts cases).selected
      = (sortCases cases).filter (fun c => retainCase opts c.name) := by
  simp [discover, hseed]

/-! ### Claim C9 -/

/-- **C9**: cases are sorted by ascending lexicographic name order before any
`DiscoverCase` is emitted: with shuffling disabled, the `DiscoverCase` events
appear in sorted name order and, in sequential mode, case executions
(`CaseStart` events of the run) also occur in sorted name order — for every
registration order. -/
theorem discovery_order_sorted (H : HashFn) (now : Nat) (opts : TestOpts)
    (cases : List CaseSpec) (sched : Nat → Nat) (race : Nat → Bool) (fuel : Nat)
    (hsh : opts.shuffle = false) (hseed : opts.shuffleSeed = none) :
    ((discover H now opts cases).events.filterMap discoverCaseName).Pairwise
      (fun a b => strLe a b = true)
    ∧ (opts.testThreads.getD 1 ≤ 1 →
        ((run opts sched race fuel (discover H now opts cases).selected).events.filterMap
          caseStartName).Pairwise (fun a b => strLe a b = true)) := by
  have hgs : getShuffleSeed now opts = none := by simp [getShuffleSeed, hseed, hsh]
  have hsorted : (sortCases cases).Pairwise nameLe := sortCases_pairwise cases
  constructor
  · rw [discover_names_eq H now opts cases hgs]
    exact hsorted.map _ (fun a b h => h)
  · intro hthreads
    have hrun : (run opts sched race fuel (discover H now opts cases).selected).events
        = Event.SuiteStart
          :: ((runSeq (runIgnoredFlag opts.runIgnored) opts.failFast
                (discover H now opts cases).selected true).1 ++ [Event.SuiteComplete]) := by
      unfold run
      rw [if_neg (by omega)]
      rfl
    rw [hrun]
    have hnames : ((runSeq (runIgnoredFlag opts.runIgnored) opts.failFast
        (discover H now opts cases).selected true).1 ++ [Event.SuiteComplete]).filterMap
          caseStartName
        = (runSeq (runIgnoredFlag opts.runIgnored) opts.failFast
            (discover H now opts cases).selected true).1.filterMap caseStartName := by
      simp [caseStartName]
    simp only [List.filterMap_cons, caseStartName, hnames]
    have hpre := runSeq_caseStartNames_prefix (runIgnoredFlag opts.runIgnored) opts.failFast
      (discover H now opts cases).selected true
    have hselsorted : ((discover H now opts cases).selected.map CaseSpec.name).Pairwise
        (fun a b => strLe a b = true) := by
      rw [discover_selected_eq H now opts cases hgs]
      exact (hsorted.filter _).map _ (fun a b h => h)
    exact hselsorted.sublist hpre.sublist

theorem discovery_order_sorted_witness :
    (({ } : TestOpts).shuffle = false ∧ ({ } : TestOpts).shuffleSeed = none
      ∧ ({ } : TestOpts).testThreads.getD 1 ≤ 1)
    ∧ ((discover ⟨fun a b => a + 2 * b, fun l => l.length⟩ 0 { }
          [⟨"b", fun _ => .normal none, false⟩,
           ⟨"a", fun _ => .normal none, false⟩]).events.filterMap discoverCaseName).Pairwise
        (fun a b => strLe a b = true) := by
  refine ⟨⟨rfl, rfl, by simp⟩, ?_⟩
  exact (discovery_order_sorted ⟨fun a b => a + 2 * b, fun l => l.length⟩ 0 { }
    [⟨"b", fun _ => .normal none, false⟩, ⟨"a", fun _ => .normal none, false⟩]
    (fun _ => 0) (fun _ => false) 4 rfl rfl).1

/-! ### List helpers -/

theorem eraseIdx_map_comm (f : α → β) : ∀ (l : List α) (i : Nat),
    (l.eraseIdx i).map f = (l.map f).eraseIdx i
  | [], _ => rfl
  | _ :: _, 0 => rfl
  | a :: l, i + 1 => by
      simp only [List.eraseIdx_cons_succ, List.map_cons, eraseIdx_map_comm f l i]

theorem set_self_eq : ∀ (l : List α) (i : Nat) (h : i < l.length), l.set i l[i] = l
  | _ :: _, 0, _ => rfl
  | a :: l, i + 1, h => by
      simp only [List.getElem_cons_succ, List.set_cons_succ, List.cons.injEq, true_and]
      exact set_self_eq l i (by simpa using h)

theorem not_mem_eraseIdx_self : ∀ (ns : List String), ns.Nodup →
    ∀ (i : Nat) (h : i < ns.length), ns[i] ∉ ns.eraseIdx i
  | x :: t, hnd, 0, _ => by
      simpa using (List.nodup_cons.mp hnd).1
  | x :: t, hnd, i + 1, h => by
      simp only [List.getElem_cons_succ, List.eraseIdx_cons_succ, List.mem_cons, not_or]
      refine ⟨?_, not_mem_eraseIdx_self t (List.nodup_cons.mp hnd).2 i (by simpa using h)⟩
      intro hx
      exact (List.nodup_cons.mp hnd).1 (hx ▸ List.getElem_mem _)

theorem mem_eraseIdx_of_ne : ∀ (ns : List String) (i : Nat) (hi : i < ns.length),
    ∀ m : String, m ≠ ns[i] → m ∈ ns → m ∈ ns.eraseIdx i
  | x :: t, 0, _, m, hne, hm => by
      simpa using (List.mem_cons.mp hm).resolve_left (by simpa using hne)
  | x :: t, i + 1, h, m, hne, hm => by
      simp only [List.eraseIdx_cons_succ, List.mem_cons]
      rcases List.mem_cons.mp hm with rfl | hm
      · exact Or.inl rfl
      · exact Or.inr (mem_eraseIdx_of_ne t i (by simpa using h) m (by simpa using hne) hm)

theorem swapList_perm [DecidableEq α] (l : List α) (i j : Nat) : (swapList l i j).Perm l := by
  cases hi : l[i]? with
  | none => simp only [swapList, hi]; exact List.Perm.refl _
  | some a =>
    cases hj : l[j]? with
    | none => simp only [swapList, hi, hj]; exact List.Perm.refl _
    | some b =>
      simp only [swapList, hi, hj]
      obtain ⟨hilt, ha⟩ := List.getElem?_eq_some_iff.mp hi
      obtain ⟨hjlt, hb⟩ := List.getElem?_eq_some_iff.mp hj
      subst ha
      subst hb
      by_cases hij : i = j
      · subst hij
        rw [List.set_set, set_self_eq l i hilt]
      · rw [List.perm_iff_count]
        intro x
        have hjlt2 : j < (l.set i l[j]).length := by simpa using hjlt
        rw [List.count_set (l[i]) x (l.set i (l[j])) j hjlt2,
          List.count_set (l[j]) x l i hilt, List.getElem_set_ne hij hjlt2]
        by_cases hx1 : l[i] = x <;> by_cases hx2 : l[j] = x
        · have h1 : 0 < List.count x l := List.count_pos_iff.mpr (hx1 ▸ List.getElem_mem hilt)
          simp only [hx1, hx2, beq_self_eq_true, if_true]
          omega
        · have h1 : 0 < List.count x l := List.count_pos_iff.mpr (hx1 ▸ List.getElem_mem hilt)
          simp [hx1, hx2]
          omega
        · simp [hx1, hx2]
        · simp [hx1, hx2]

theorem shuffleSteps_perm [DecidableEq α] (H : HashFn) (k : Nat) (r : Rng) (l : List α)
    (i : Nat) : (shuffleSteps H k r l i).Perm l := by
  induction k generalizing r l i with
  | zero => exact List.Perm.refl _
  | succ k ih =>
    exact (ih _ _ _).trans (swapList_perm ..)

/-! ### Case-name injectivity and event helpers -/

theorem name_inj {cases : List CaseSpec} (hnd : (cases.map CaseSpec.name).Nodup) :
    ∀ a ∈ cases, ∀ b ∈ cases, a.name = b.name → a = b := by
  induction cases with
  | nil => intro a ha; simp at ha
  | cons x xs ih =>
    simp only [List.map_cons, List.nodup_cons] at hnd
    intro a ha b hb hab
    rcases List.mem_cons.mp ha with ha1 | ha2
    · rcases List.mem_cons.mp hb with hb1 | hb2
      · rw [ha1, hb1]
      · exfalso
        apply hnd.1
        rw [← ha1, hab]
        exact List.mem_map_of_mem CaseSpec.name hb2
    · rcases List.mem_cons.mp hb with hb1 | hb2
      · exfalso
        apply hnd.1
        rw [← hb1, ← hab]
        exact List.mem_map_of_mem CaseSpec.name ha2
      · exact ih hnd.2 a ha2 b hb2 hab

theorem joinEvent_caseStart (p : Bool) (n : String) :
    joinEvent p (.CaseStart n) = .CaseStart n := rfl

theorem joinEvent_complete_shape (p : Bool) (n : String) (mo : RunMode)
    (st : Option RunStatus) (ms : Option String) :
    ∃ st2 ms2, joinEvent p (.CaseComplete n mo st ms) = .CaseComplete n mo st2 ms2 := by
  by_cases h : (p && st == none) = true
  · exact ⟨some .Failed, some "panicked after reporting success", by
      simp only [joinEvent, if_pos h]⟩
  · exact ⟨st, ms, by simp only [joinEvent, if_neg h]⟩

theorem isCaseEventOf_caseStart (m n : String) :
    isCaseEventOf m (.CaseStart n) = (n == m) := rfl

theorem isCaseEventOf_complete (m n : String) (mo : RunMode) (st : Option RunStatus)
    (ms : Option String) : isCaseEventOf m (.CaseComplete n mo st ms) = (n == m) := rfl

theorem caseFilter_append (n : String) (a b : List Event) :
    caseFilter n (a ++ b) = caseFilter n a ++ caseFilter n b :=
  List.filter_append a b

theorem caseFilter_joined_complete_self (n : String) (p : Bool) (mo : RunMode)
    (st : Option RunStatus) (ms : Option String) :
    caseFilter n [joinEvent p (.CaseComplete n mo st ms)]
      = [joinEvent p (.CaseComplete n mo st ms)] := by
  obtain ⟨st2, ms2, he⟩ := joinEvent_complete_shape p n mo st ms
  rw [he]
  simp [caseFilter, isCaseEventOf_complete]

theorem caseFilter_joined_complete_other (m n : String) (hne : n ≠ m) (p : Bool)
    (mo : RunMode) (st : Option RunStatus) (ms : Option String) :
    caseFilter m [joinEvent p (.CaseComplete n mo st ms)] = [] := by
  obtain ⟨st2, ms2, he⟩ := joinEvent_complete_shape p n mo st ms
  rw [he]
  simp [caseFilter, isCaseEventOf_complete, hne]

/-- Removing the just-completed worker: with distinct worker names, updating
slot `i` and then erasing by that worker's name erases exactly slot `i`. -/
theorem eraseP_set_eraseIdx : ∀ (ws : List Worker) (i : Nat) (hi : i < ws.length)
    (hnd : (ws.map Worker.wname).Nodup) (w' : Worker)
    (hn : w'.wname = (ws.get ⟨i, hi⟩).wname),
    (ws.set i w').eraseP (fun x => x.wname == (ws.get ⟨i, hi⟩).wname) = ws.eraseIdx i
  | h :: t, 0, _, _, w', hn => by
      simp only [List.get_eq_getElem, List.getElem_cons_zero] at hn ⊢
      simp [List.eraseP_cons, hn]
  | h :: t, i + 1, hlt, hnd, w', hn => by
      simp only [List.map_cons, List.nodup_cons] at hnd
      simp only [List.get_eq_getElem, List.getElem_cons_succ] at hn ⊢
      have hlt2 : i < t.length := by simpa using hlt
      have hmem : t[i].wname ∈ t.map Worker.wname :=
        List.mem_map_of_mem Worker.wname (List.getElem_mem _)
      have hne : (h.wname == t[i].wname) = false := by
        simp only [beq_eq_false_iff_ne, ne_eq]
        intro hq
        exact hnd.1 (hq ▸ hmem)
      simp only [List.set_cons_succ, List.eraseP_cons, List.eraseIdx_cons_succ, hne,
        cond_false]
      have := eraseP_set_eraseIdx t i hlt2 hnd.2 w' (by simpa using hn)
      simpa using this

/-! ### Computation lemmas for `recvStep` -/

theorem recvStep_eq_start (failFast : Bool) (ch : Nat) (race : Bool) (s : CState)
    (hw : s.workers ≠ []) (w : Worker)
    (hgw : s.workers.getD (ch % s.workers.length) ⟨"", false, true, []⟩ = w)
    (n : String) (rest : List Event) (hout : w.outbox = Event.CaseStart n :: rest) :
    recvStep failFast ch race s =
      ({ remaining := s.remaining,
         workers := s.workers.set (ch % s.workers.length) { w with outbox := rest },
         emitted := s.emitted ++ [Event.CaseStart n],
         syncS := s.syncS,
         success := s.success && (s.syncS
           && !(race && (s.workers.set (ch % s.workers.length)
                 { w with outbox := rest }).any (fun x => !x.caseSuccess))) },
       !(s.success && (s.syncS
           && !(race && (s.workers.set (ch % s.workers.length)
                 { w with outbox := rest }).any (fun x => !x.caseSuccess)))) && failFast) := by
  have hwe : s.workers.isEmpty = false := by simp [List.isEmpty_iff, hw]
  simp only [recvStep, hwe, Bool.false_eq_true, if_false, hgw, hout]

theorem recvStep_eq_complete (failFast : Bool) (ch : Nat) (race : Bool) (s : CState)
    (hw : s.workers ≠ []) (w : Worker)
    (hgw : s.workers.getD (ch % s.workers.length) ⟨"", false, true, []⟩ = w)
    (n : String) (mo : RunMode) (st : Option RunStatus) (ms : Option String)
    (rest : List Event) (hout : w.outbox = Event.CaseComplete n mo st ms :: rest) :
    recvStep failFast ch race s =
      ({ remaining := s.remaining,
         workers := (s.workers.set (ch % s.workers.length)
             { w with outbox := rest }).eraseP (fun x => x.wname == n),
         emitted := s.emitted ++ [joinEvent w.panicked (Event.CaseComplete n mo st ms)],
         syncS := s.syncS && w.caseSuccess,
         success := s.success && ((s.syncS && w.caseSuccess)
           && !(race && ((s.workers.set (ch % s.workers.length)
                 { w with outbox := rest }).eraseP (fun x => x.wname == n)).any
                 (fun x => !x.caseSuccess))) },
       !(s.success && ((s.syncS && w.caseSuccess)
           && !(race && ((s.workers.set (ch % s.workers.length)
                 { w with outbox := rest }).eraseP (fun x => x.wname == n)).any
                 (fun x => !x.caseSuccess)))) && failFast) := by
  have hwe : s.workers.isEmpty = false := by simp [List.isEmpty_iff, hw]
  simp only [recvStep, hwe, Bool.false_eq_true, if_false, hgw, hout]

/-! ### Invariant preservation: launching -/

@[simp] theorem workerNames_mk (r : List CaseSpec) (w : List Worker) (e : List Event)
    (sy su : Bool) : workerNames ⟨r, w, e, sy, su⟩ = w.map Worker.wname := rfl

@[simp] theorem remainingNames_mk (r : List CaseSpec) (w : List Worker) (e : List Event)
    (sy su : Bool) : remainingNames ⟨r, w, e, sy, su⟩ = r.map CaseSpec.name := rfl

theorem map_join_runCaseEvents (runIg : Bool) (c : CaseSpec) :
    (runCaseEvents runIg c).map (joinEvent c.panicsAfterReport) = expectedStream runIg c := rfl

theorem spawn_inv (runIg : Bool) (cases : List CaseSpec)
    (hnd : (cases.map CaseSpec.name).Nodup) (c : CaseSpec) (rest : List CaseSpec)
    (ws : List Worker) (emitted : List Event) (syncS success : Bool)
    (hInv : Inv runIg cases ⟨c :: rest, ws, emitted, syncS, success⟩) :
    Inv runIg cases ⟨rest, ws ++ [spawnWorker runIg c], emitted, syncS, success⟩ := by
  obtain ⟨⟨launched, hl⟩, hworkers, hwnd, hdisj, hqueued, hflight, hdone, hsync, hterm,
    hallpass⟩ := hInv
  simp only [workerNames_mk, remainingNames_mk] at hl hworkers hwnd hdisj hqueued hflight hdone hsync hterm hallpass
  have hcmem : c ∈ cases := by
    rw [hl]; exact List.mem_append_right _ (List.mem_cons_self c rest)
  have hnodup2 : (c.name :: rest.map CaseSpec.name).Nodup := by
    have h2 : ((c :: rest).map CaseSpec.name).Nodup := by
      have h3 := hnd
      rw [hl, List.map_append] at h3
      exact h3.of_append_right
    simpa using h2
  have hcnotrest : c.name ∉ rest.map CaseSpec.name := (List.nodup_cons.mp hnodup2).1
  have hcnotws : c.name ∉ ws.map Worker.wname := by
    intro hmem
    obtain ⟨w, hwmem, hwn⟩ := List.mem_map.mp hmem
    have hd := hdisj w hwmem
    simp only [remainingNames_mk, List.map_cons] at hd
    exact hd (by rw [hwn]; exact List.mem_cons_self _ _)
  refine ⟨⟨launched ++ [c], by simp [hl]⟩, ?_, ?_, ?_, ?_, ?_, ?_, ?_, ?_, ?_⟩
  · intro w hwmem
    rcases List.mem_append.mp hwmem with h | h
    · exact hworkers w h
    · have hw : w = spawnWorker runIg c := by simpa using h
      subst hw
      exact ⟨c, hcmem, rfl, rfl, rfl, Or.inl rfl⟩
  · simp only [workerNames_mk, List.map_append]
    refine (by simpa using hwnd : (ws.map Worker.wname).Nodup).append (by simp) ?_
    intro a ha hb
    simp only [List.map_cons, List.map_nil, List.mem_cons, List.not_mem_nil, or_false] at hb
    have hb2 : a = c.name := hb
    exact hcnotws (hb2 ▸ ha)
  · intro w hwmem
    simp only [remainingNames_mk]
    rcases List.mem_append.mp hwmem with h | h
    · have hd := hdisj w h
      simp only [remainingNames_mk, List.map_cons] at hd
      intro hmem
      exact hd (List.mem_cons_of_mem _ hmem)
    · have hw : w = spawnWorker runIg c := by simpa using h
      subst hw
      exact hcnotrest
  · intro c2 hc2 hname
    apply hqueued c2 hc2
    simp only [remainingNames_mk, List.map_cons]
    exact List.mem_cons_of_mem _ (by simpa using hname)
  · intro c2 hc2 w hwmem hwn
    rcases List.mem_append.mp hwmem with h | h
    · exact hflight c2 hc2 w h hwn
    · have hw : w = spawnWorker runIg c := by simpa using h
      subst hw
      have hc2c : c2 = c := by
        apply name_inj hnd c2 hc2 c hcmem
        rw [← hwn]
        rfl
      subst hc2c
      have hfil : caseFilter c2.name emitted = [] := by
        apply hqueued c2 hc2
        simp
      show caseFilter c2.name emitted ++ _ = _
      rw [hfil]
      simpa using map_join_runCaseEvents runIg c2
  · simp only [workerNames_mk, remainingNames_mk, List.map_append, List.map_cons,
      List.map_nil, List.mem_append, List.mem_cons, List.not_mem_nil, or_false, not_or]
    intro c2 hc2 hr hw2
    apply hdone c2 hc2
    · simp only [List.map_cons, List.mem_cons, not_or]
      exact ⟨hw2.2, hr⟩
    · exact hw2.1
  · simp only [workerNames_mk, remainingNames_mk, List.map_append, List.map_cons,
      List.map_nil, List.mem_append, List.mem_cons, List.not_mem_nil, or_false, not_or]
    rw [hsync]
    constructor
    · intro h c2 hc2 hr hw2
      apply h c2 hc2
      · simp only [List.map_cons, List.mem_cons, not_or]
        exact ⟨hw2.2, hr⟩
      · exact hw2.1
    · intro h c2 hc2 hr hw2
      have hr2 : ¬ (c2.name = c.name ∨ c2.name ∈ rest.map CaseSpec.name) := by
        simpa using hr
      apply h c2 hc2
      · exact fun hm => hr2 (Or.inr hm)
      · exact ⟨hw2, fun he => hr2 (Or.inl he)⟩
  · intro hwork
    exfalso
    simpa using hwork
  · exact hallpass

theorem launchLoop_spec (runIg : Bool) (threads : Nat) (cases : List CaseSpec)
    (hnd : (cases.map CaseSpec.name).Nodup) :
    ∀ (rem : List CaseSpec) (ws : List Worker) (emitted : List Event) (syncS success : Bool),
      Inv runIg cases ⟨rem, ws, emitted, syncS, success⟩ →
      Inv runIg cases ⟨(launchLoop runIg threads rem ws).1,
        (launchLoop runIg threads rem ws).2, emitted, syncS, success⟩
      ∧ 2 * (launchLoop runIg threads rem ws).1.length
          + (((launchLoop runIg threads rem ws).2).map (fun w => w.outbox.length)).sum
        = 2 * rem.length + (ws.map (fun w => w.outbox.length)).sum
      ∧ (1 ≤ threads → (launchLoop runIg threads rem ws).2 = [] →
          (launchLoop runIg threads rem ws).1 = []) := by
  intro rem
  induction rem with
  | nil =>
    intro ws emitted syncS success hInv
    exact ⟨hInv, rfl, fun _ _ => rfl⟩
  | cons c rest ih =>
    intro ws emitted syncS success hInv
    by_cases hlen : ws.length < threads
    · have hstep : launchLoop runIg threads (c :: rest) ws
          = launchLoop runIg threads rest (ws ++ [spawnWorker runIg c]) := by
        simp [launchLoop, hlen]
      rw [hstep]
      have hInv2 := spawn_inv runIg cases hnd c rest ws emitted syncS success hInv
      obtain ⟨h1, h2, h3⟩ := ih (ws ++ [spawnWorker runIg c]) emitted syncS success hInv2
      refine ⟨h1, ?_, h3⟩
      rw [h2]
      simp only [List.map_append, List.sum_append, List.length_cons, List.map_cons,
        List.map_nil, List.sum_cons, List.sum_nil]
      show _ + (_ + ((runCaseEvents runIg c).length + 0)) = _
      simp only [runCaseEvents, List.length_cons, List.length_nil]
      omega
    · have hstep : launchLoop runIg threads (c :: rest) ws = (c :: rest, ws) := by
        simp [launchLoop, hlen]
      rw [hstep]
      refine ⟨hInv, rfl, ?_⟩
      intro hth hempty
      have hempty2 : ws = [] := by simpa using hempty
      exfalso
      apply hlen
      rw [hempty2]
      simpa using hth

/-! ### More helpers for the receive step -/

theorem sum_set_nat : ∀ (l : List Nat) (i : Nat) (a : Nat) (hi : i < l.length),
    (l.set i a).sum + l[i] = l.sum + a
  | x :: t, 0, a, _ => by simp [Nat.add_comm, Nat.add_left_comm]
  | x :: t, i + 1, a, hi => by
      simp only [List.set_cons_succ, List.getElem_cons_succ, List.sum_cons]
      have := sum_set_nat t i a (by simpa using hi)
      omega

theorem sum_eraseIdx_nat : ∀ (l : List Nat) (i : Nat) (hi : i < l.length),
    (l.eraseIdx i).sum + l[i] = l.sum
  | x :: t, 0, _ => by simp [Nat.add_comm]
  | x :: t, i + 1, hi => by
      simp only [List.eraseIdx_cons_succ, List.getElem_cons_succ, List.sum_cons]
      have := sum_eraseIdx_nat t i (by simpa using hi)
      omega

/-- With distinct worker names, a member sharing the name of slot `i` is the
slot-`i` element. -/
theorem mem_name_unique (l : List Worker) (hnd : (l.map Worker.wname).Nodup) (i : Nat)
    (hi : i < l.length) (x : Worker) (hx : x ∈ l)
    (hn : x.wname = (l.get ⟨i, hi⟩).wname) : x = l.get ⟨i, hi⟩ := by
  obtain ⟨k, hk, hkx⟩ := List.mem_iff_getElem.mp hx
  have hki : k = i := by
    have hlen : k < (l.map Worker.wname).length := by simpa using hk
    have hlen2 : i < (l.map Worker.wname).length := by simpa using hi
    have : (l.map Worker.wname)[k] = (l.map Worker.wname)[i] := by
      rw [List.getElem_map, List.getElem_map, hkx]
      simpa using hn
    exact (List.Nodup.getElem_inj_iff hnd).mp this
  rw [← hkx, List.get_eq_getElem]
  subst hki
  rfl

theorem caseFilter_start_self (n : String) :
    caseFilter n [Event.CaseStart n] = [Event.CaseStart n] := by
  simp [caseFilter, isCaseEventOf]

theorem caseFilter_start_other (m n : String) (hne : n ≠ m) :
    caseFilter m [Event.CaseStart n] = [] := by
  simp only [caseFilter, List.filter, isCaseEventOf_caseStart, beq_eq_false_iff_ne.mpr hne]

theorem joinEvent_false_eq (e : Event) : joinEvent false e = e := by
  cases e <;> simp [joinEvent]

theorem isFailedComplete_caseComplete (runIg : Bool) (c : CaseSpec) :
    isFailedComplete (caseCompleteEvent runIg c) = true →
      runCaseSuccess runIg c = false := by
  unfold isFailedComplete caseCompleteEvent runCaseSuccess
  cases hst : runCaseStatus runIg c with
  | none => simp
  | some st => cases st <;> simp

theorem isFailedComplete_caseStart (n : String) :
    isFailedComplete (Event.CaseStart n) = false := rfl

theorem isTripFailed_imp_failed (e : Event) :
    isTripFailed e = true → isFailedComplete e = true := by
  cases e with
  | CaseComplete n mo st ms =>
    cases st with
    | none => intro h; exact absurd h Bool.false_ne_true
    | some r =>
      cases r with
      | Ignored => intro h; exact absurd h Bool.false_ne_true
      | Failed => intro _; rfl
  | DiscoverStart => intro h; exact absurd h Bool.false_ne_true
  | DiscoverCase a b c2 => intro h; exact absurd h Bool.false_ne_true
  | DiscoverComplete a => intro h; exact absurd h Bool.false_ne_true
  | SuiteStart => intro h; exact absurd h Bool.false_ne_true
  | CaseStart a => intro h; exact absurd h Bool.false_ne_true
  | SuiteComplete => intro h; exact absurd h Bool.false_ne_true

theorem isTripFailed_caseStart (n : String) :
    isTripFailed (Event.CaseStart n) = false := rfl

theorem isTripFailed_caseComplete (runIg : Bool) (c : CaseSpec) :
    isTripFailed (caseCompleteEvent runIg c) = true → runCaseSuccess runIg c = false :=
  fun h => isFailedComplete_caseComplete runIg c (isTripFailed_imp_failed _ h)

theorem isTripFailed_joinEvent (p : Bool) (e : Event) :
    isTripFailed (joinEvent p e) = true → isTripFailed e = true := by
  cases e with
  | CaseComplete n mo st ms =>
    by_cases hcond : (p && st == none) = true
    · intro h
      have hjoin : joinEvent p (Event.CaseComplete n mo st ms)
          = Event.CaseComplete n mo (some .Failed)
            (some "panicked after reporting success") := by
        simp only [joinEvent, if_pos hcond]
      rw [hjoin] at h
      have hfalse : isTripFailed (Event.CaseComplete n mo (some .Failed)
          (some "panicked after reporting success")) = false := by
        show (!(some "panicked after reporting success"
          == some "panicked after reporting success")) = false
        simp
      rw [hfalse] at h
      exact absurd h Bool.false_ne_true
    · intro h
      have hjoin : joinEvent p (Event.CaseComplete n mo st ms)
          = Event.CaseComplete n mo st ms := by
        simp only [joinEvent, if_neg hcond]
      rwa [hjoin] at h
  | DiscoverStart => intro h; exact h
  | DiscoverCase a b c2 => intro h; exact h
  | DiscoverComplete a => intro h; exact h
  | SuiteStart => intro h; exact h
  | CaseStart a => intro h; exact h
  | SuiteComplete => intro h; exact h

theorem countP_trip_le_failed (l : List Event) :
    l.countP isTripFailed ≤ l.countP isFailedComplete :=
  List.countP_mono_left (fun a _ => isTripFailed_imp_failed a)

theorem runCaseEvents_length (runIg : Bool) (c : CaseSpec) :
    (runCaseEvents runIg c).length = 2 := rfl

theorem runCaseEvents_cons (runIg : Bool) (c : CaseSpec) :
    runCaseEvents runIg c = Event.CaseStart c.name :: [caseCompleteEvent runIg c] := rfl

theorem recvStep_spec_start (runIg failFast : Bool) (cases : List CaseSpec)
    (hnd : (cases.map CaseSpec.name).Nodup) (ch : Nat) (race : Bool) (s : CState)
    (hInv : Inv runIg cases s) (hw : s.workers ≠ [])
    (w : Worker) (hgw : s.workers.getD (ch % s.workers.length) ⟨"", false, true, []⟩ = w)
    (c : CaseSpec) (hc : c ∈ cases) (hwn : w.wname = c.name)
    (hwp : w.panicked = c.panicsAfterReport) (hws : w.caseSuccess = runCaseSuccess runIg c)
    (hfull : w.outbox = runCaseEvents runIg c) :
    Inv runIg cases (recvStep failFast ch race s).1
    ∧ measureM (recvStep failFast ch race s).1 + 1 = measureM s
    ∧ (recvStep failFast ch race s).1.remaining = s.remaining
    ∧ (∃ ev, (recvStep failFast ch race s).1.emitted = s.emitted ++ [ev]
        ∧ (isFailedComplete ev = true → (∀ c2 ∈ cases, c2.panicsAfterReport = false) →
            (recvStep failFast ch race s).1.success = false))
    ∧ ((recvStep failFast ch race s).1.success = true → s.success = true)
    ∧ (recvStep failFast ch race s).2
        = (!(recvStep failFast ch race s).1.success && failFast) := by
  have hstep := recvStep_eq_start failFast ch race s hw w hgw c.name
    [caseCompleteEvent runIg c] (by rw [hfull]; rfl)
  rw [hstep]
  obtain ⟨⟨launched, hl⟩, hworkers, hwnd, hdisj, hqueued, hflight, hdone, hsync, hterm,
    hallpass⟩ := hInv
  simp only [workerNames, remainingNames] at hwnd hdisj hqueued hflight hdone hsync
  have hlen : 0 < s.workers.length := List.length_pos.mpr hw
  have hi : ch % s.workers.length < s.workers.length := Nat.mod_lt _ hlen
  have hwi : s.workers.get ⟨ch % s.workers.length, hi⟩ = w := by
    rw [← hgw, List.getD_eq_getElem _ _ hi, List.get_eq_getElem]
  have hwmem : w ∈ s.workers := by rw [← hwi]; exact List.get_mem _ _ hi
  have hcnq : c.name ∉ s.remaining.map CaseSpec.name := by
    rw [← hwn]; exact hdisj w hwmem
  have hnames1 : (s.workers.set (ch % s.workers.length)
      { w with outbox := [caseCompleteEvent runIg c] }).map Worker.wname
        = s.workers.map Worker.wname := by
    rw [List.map_set]
    have him : ch % s.workers.length < (s.workers.map Worker.wname).length := by
      simpa using hi
    have hv : ({ w with outbox := [caseCompleteEvent runIg c] } : Worker).wname
        = (s.workers.map Worker.wname)[ch % s.workers.length] := by
      rw [List.getElem_map]
      rw [show s.workers[ch % s.workers.length] = w from by
        rw [← hwi, List.get_eq_getElem]]
    rw [hv]
    exact set_self_eq _ _ (by simpa using hi)
  have hmem1 : ∀ x ∈ s.workers.set (ch % s.workers.length)
      { w with outbox := [caseCompleteEvent runIg c] },
      x ∈ s.workers ∨ x = { w with outbox := [caseCompleteEvent runIg c] } :=
    fun x hx => List.mem_or_eq_of_mem_set hx
  have hwnd1 : ((s.workers.set (ch % s.workers.length)
      { w with outbox := [caseCompleteEvent runIg c] }).map Worker.wname).Nodup := by
    rw [hnames1]; exact hwnd
  have hslot : (s.workers.set (ch % s.workers.length)
      { w with outbox := [caseCompleteEvent runIg c] }).get
        ⟨ch % s.workers.length, by simpa using hi⟩
      = { w with outbox := [caseCompleteEvent runIg c] } := by
    rw [List.get_eq_getElem]
    exact List.getElem_set_self _
  have huniq : ∀ x ∈ s.workers.set (ch % s.workers.length)
      { w with outbox := [caseCompleteEvent runIg c] }, x.wname = c.name →
      x = { w with outbox := [caseCompleteEvent runIg c] } := by
    intro x hx hxn
    have hi1 : ch % s.workers.length < (s.workers.set (ch % s.workers.length)
        { w with outbox := [caseCompleteEvent runIg c] }).length := by simpa using hi
    have hxq := mem_name_unique _ hwnd1 (ch % s.workers.length) hi1 x hx
      (by rw [hslot]; show x.wname = w.wname; rw [hxn, hwn])
    rw [hxq, hslot]
  refine ⟨⟨⟨launched, hl⟩, ?_, ?_, ?_, ?_, ?_, ?_, ?_, ?_, ?_⟩, ?_, rfl, ?_, ?_, rfl⟩
  · intro x hx
    rcases hmem1 x hx with hxo | hxe
    · exact hworkers x hxo
    · subst hxe
      exact ⟨c, hc, hwn, hwp, hws, Or.inr rfl⟩
  · simpa only [workerNames_mk] using hwnd1
  · intro x hx
    simp only [remainingNames_mk]
    rcases hmem1 x hx with hxo | hxe
    · exact hdisj x hxo
    · subst hxe
      show w.wname ∉ _
      exact hdisj w hwmem
  · intro c2 hc2 hr
    simp only [remainingNames_mk] at hr
    have hne : c.name ≠ c2.name := by
      intro he
      exact hcnq (he ▸ hr)
    show caseFilter c2.name (s.emitted ++ [Event.CaseStart c.name]) = []
    rw [caseFilter_append, caseFilter_start_other c2.name c.name hne,
      hqueued c2 hc2 hr, List.append_nil]
  · intro c2 hc2 x hx hxn
    by_cases hceq : c2.name = c.name
    · have hc2c : c2 = c := name_inj hnd c2 hc2 c hc hceq
      have hxw2 := huniq x hx (by rw [hxn, hceq])
      subst hxw2
      rw [hc2c]
      show caseFilter c.name (s.emitted ++ [Event.CaseStart c.name])
          ++ List.map (joinEvent w.panicked) [caseCompleteEvent runIg c]
          = expectedStream runIg c
      rw [caseFilter_append, caseFilter_start_self]
      have hold := hflight c hc w hwmem hwn
      rw [hfull, runCaseEvents_cons] at hold
      simp only [List.map_cons, joinEvent_caseStart] at hold
      rw [← hold]
      simp
    · have hxo : x ∈ s.workers := by
        rcases hmem1 x hx with hxo | hxe
        · exact hxo
        · exfalso
          apply hceq
          rw [← hxn]
          subst hxe
          show w.wname = c.name
          exact hwn
      show caseFilter c2.name (s.emitted ++ [Event.CaseStart c.name])
          ++ List.map (joinEvent x.panicked) x.outbox = _
      rw [caseFilter_append, caseFilter_start_other c2.name c.name
        (fun he => hceq he.symm), List.append_nil]
      exact hflight c2 hc2 x hxo hxn
  · intro c2 hc2 hr hw2
    simp only [remainingNames_mk] at hr
    simp only [workerNames_mk, hnames1] at hw2
    have hne : c.name ≠ c2.name := by
      intro he
      apply hw2
      rw [← he, ← hwn]
      exact List.mem_map_of_mem Worker.wname hwmem
    show caseFilter c2.name (s.emitted ++ [Event.CaseStart c.name]) = _
    rw [caseFilter_append, caseFilter_start_other c2.name c.name hne, List.append_nil]
    exact hdone c2 hc2 hr hw2
  · show s.syncS = true ↔ _
    rw [hsync]
    constructor
    · intro h c2 hc2 hr hw2
      simp only [remainingNames_mk] at hr
      simp only [workerNames_mk, hnames1] at hw2
      exact h c2 hc2 hr hw2
    · intro h c2 hc2 hr hw2
      apply h c2 hc2
      · simpa only [remainingNames_mk] using hr
      · simpa only [workerNames_mk, hnames1] using hw2
  · intro hempty hrem hsu
    exfalso
    have he2 : s.workers.set (ch % s.workers.length)
        { w with outbox := [caseCompleteEvent runIg c] } = [] := hempty
    have hlen0 : (s.workers.set (ch % s.workers.length)
        { w with outbox := [caseCompleteEvent runIg c] }).length = 0 := by
      rw [he2]; rfl
    rw [List.length_set] at hlen0
    omega
  · intro hall
    show (s.success && _) = true
    have h1 : s.success = true := hallpass hall
    have h2 : s.syncS = true := hsync.mpr (fun c2 hc2 _ _ => hall c2 hc2)
    have h3 : (s.workers.set (ch % s.workers.length)
        { w with outbox := [caseCompleteEvent runIg c] }).any
          (fun x => !x.caseSuccess) = false := by
      rw [List.any_eq_false]
      intro x hx
      rcases hmem1 x hx with hxo | hxe
      · obtain ⟨c3, hc3, _, _, hws3, _⟩ := hworkers x hxo
        rw [hws3, hall c3 hc3]
        simp
      · subst hxe
        show ¬(!w.caseSuccess) = true
        rw [hws, hall c hc]
        simp
    rw [h1, h2, h3]
    simp
  · show 2 * s.remaining.length + _ + 1 = 2 * s.remaining.length + _
    have hmap : (List.map (fun x => x.outbox.length) (s.workers.set (ch % s.workers.length)
        { w with outbox := [caseCompleteEvent runIg c] }))
        = (List.map (fun x => x.outbox.length) s.workers).set (ch % s.workers.length) 1 := by
      rw [List.map_set]
      rfl
    have him2 : ch % s.workers.length
        < (List.map (fun x : Worker => x.outbox.length) s.workers).length := by
      simpa using hi
    have hgi : (List.map (fun x : Worker => x.outbox.length)
        s.workers)[ch % s.workers.length] = 2 := by
      rw [List.getElem_map]
      rw [show s.workers[ch % s.workers.length] = w from by rw [← hwi, List.get_eq_getElem]]
      rw [hfull]
      rfl
    have hsum := sum_set_nat (List.map (fun x : Worker => x.outbox.length) s.workers)
      (ch % s.workers.length) 1 (by simpa using hi)
    rw [hgi] at hsum
    rw [hmap]
    omega
  · exact ⟨Event.CaseStart c.name, rfl, by
      rw [isFailedComplete_caseStart]
      intro hfc
      exact absurd hfc (by simp)⟩
  · intro hsucc
    have := hsucc
    simp only [Bool.and_eq_true] at this
    exact this.1

theorem recvStep_spec_complete (runIg failFast : Bool) (cases : List CaseSpec)
    (hnd : (cases.map CaseSpec.name).Nodup) (ch : Nat) (race : Bool) (s : CState)
    (hInv : Inv runIg cases s) (hw : s.workers ≠ [])
    (w : Worker) (hgw : s.workers.getD (ch % s.workers.length) ⟨"", false, true, []⟩ = w)
    (c : CaseSpec) (hc : c ∈ cases) (hwn : w.wname = c.name)
    (hwp : w.panicked = c.panicsAfterReport) (hws : w.caseSuccess = runCaseSuccess runIg c)
    (hcomp : w.outbox = [caseCompleteEvent runIg c]) :
    Inv runIg cases (recvStep failFast ch race s).1
    ∧ measureM (recvStep failFast ch race s).1 + 1 = measureM s
    ∧ (recvStep failFast ch race s).1.remaining = s.remaining
    ∧ (∃ ev, (recvStep failFast ch race s).1.emitted = s.emitted ++ [ev]
        ∧ (isFailedComplete ev = true → (∀ c2 ∈ cases, c2.panicsAfterReport = false) →
            (recvStep failFast ch race s).1.success = false))
    ∧ ((recvStep failFast ch race s).1.success = true → s.success = true)
    ∧ (recvStep failFast ch race s).2
        = (!(recvStep failFast ch race s).1.success && failFast) := by
  obtain ⟨⟨launched, hl⟩, hworkers, hwnd, hdisj, hqueued, hflight, hdone, hsync, hterm,
    hallpass⟩ := hInv
  simp only [workerNames, remainingNames] at hwnd hdisj hqueued hflight hdone hsync
  have hlen : 0 < s.workers.length := List.length_pos.mpr hw
  have hi : ch % s.workers.length < s.workers.length := Nat.mod_lt _ hlen
  have hwi : s.workers.get ⟨ch % s.workers.length, hi⟩ = w := by
    rw [← hgw, List.getD_eq_getElem _ _ hi, List.get_eq_getElem]
  have hwmem : w ∈ s.workers := by rw [← hwi]; exact List.get_mem _ _ hi
  have hcnq : c.name ∉ s.remaining.map CaseSpec.name := by
    rw [← hwn]; exact hdisj w hwmem
  have hstep := recvStep_eq_complete failFast ch race s hw w hgw c.name RunMode.Test
    (runCaseStatus runIg c) (runCaseMessage runIg c) [] (by rw [hcomp]; rfl)
  have herase : (s.workers.set (ch % s.workers.length) { w with outbox := [] }).eraseP
      (fun x => x.wname == c.name) = s.workers.eraseIdx (ch % s.workers.length) := by
    have hslotname : (s.workers.get ⟨ch % s.workers.length, hi⟩).wname = c.name := by
      rw [hwi, hwn]
    rw [← hslotname]
    exact eraseP_set_eraseIdx s.workers (ch % s.workers.length) hi hwnd
      { w with outbox := [] } (by rw [hwi])
  rw [herase] at hstep
  rw [hstep]
  have hnamesE : (s.workers.eraseIdx (ch % s.workers.length)).map Worker.wname
      = (s.workers.map Worker.wname).eraseIdx (ch % s.workers.length) :=
    eraseIdx_map_comm Worker.wname s.workers (ch % s.workers.length)
  have hwnd1 : ((s.workers.eraseIdx (ch % s.workers.length)).map Worker.wname).Nodup := by
    rw [hnamesE]
    exact (List.eraseIdx_sublist _ _).nodup hwnd
  have hilen : ch % s.workers.length < (s.workers.map Worker.wname).length := by
    simpa using hi
  have hni : (s.workers.map Worker.wname)[ch % s.workers.length] = c.name := by
    rw [List.getElem_map]
    rw [show s.workers[ch % s.workers.length] = w from by rw [← hwi, List.get_eq_getElem]]
    exact hwn
  have hcnotE : c.name ∉ (s.workers.eraseIdx (ch % s.workers.length)).map Worker.wname := by
    rw [hnamesE]
    intro hmem
    apply not_mem_eraseIdx_self (s.workers.map Worker.wname) hwnd
      (ch % s.workers.length) hilen
    rw [hni]
    exact hmem
  have hpres : ∀ m : String, m ≠ c.name → m ∈ s.workers.map Worker.wname →
      m ∈ (s.workers.eraseIdx (ch % s.workers.length)).map Worker.wname := by
    intro m hm hmem
    rw [hnamesE]
    exact mem_eraseIdx_of_ne (s.workers.map Worker.wname) (ch % s.workers.length) hilen m
      (by rw [hni]; exact hm) hmem
  have hEsub : ∀ m : String, m ∈ (s.workers.eraseIdx (ch % s.workers.length)).map
      Worker.wname → m ∈ s.workers.map Worker.wname := by
    intro m hm
    rw [hnamesE] at hm
    exact (List.eraseIdx_sublist _ _).subset hm
  have hjself : caseFilter c.name [joinEvent w.panicked (caseCompleteEvent runIg c)]
      = [joinEvent w.panicked (caseCompleteEvent runIg c)] :=
    caseFilter_joined_complete_self c.name w.panicked RunMode.Test (runCaseStatus runIg c)
      (runCaseMessage runIg c)
  have hjother : ∀ m : String, m ≠ c.name →
      caseFilter m [joinEvent w.panicked (caseCompleteEvent runIg c)] = [] := by
    intro m hm
    exact caseFilter_joined_complete_other m c.name (fun he => hm he.symm) w.panicked
      RunMode.Test (runCaseStatus runIg c) (runCaseMessage runIg c)
  refine ⟨⟨⟨launched, hl⟩, ?_, ?_, ?_, ?_, ?_, ?_, ?_, ?_, ?_⟩, ?_, rfl, ?_, ?_, rfl⟩
  · intro x hx
    exact hworkers x (List.mem_of_mem_eraseIdx hx)
  · simpa only [workerNames_mk] using hwnd1
  · intro x hx
    simp only [remainingNames_mk]
    exact hdisj x (List.mem_of_mem_eraseIdx hx)
  · intro c2 hc2 hr
    simp only [remainingNames_mk] at hr
    have hne : c2.name ≠ c.name := by
      intro he
      exact hcnq (he ▸ hr)
    show caseFilter c2.name (s.emitted ++ [joinEvent w.panicked (caseCompleteEvent runIg c)])
      = []
    rw [caseFilter_append, hjother c2.name hne, hqueued c2 hc2 hr, List.append_nil]
  · intro c2 hc2 x hx hxn
    by_cases hceq : c2.name = c.name
    · exfalso
      apply hcnotE
      rw [← hceq, ← hxn]
      exact List.mem_map_of_mem Worker.wname hx
    · show caseFilter c2.name (s.emitted ++ [joinEvent w.panicked (caseCompleteEvent runIg c)])
          ++ List.map (joinEvent x.panicked) x.outbox = _
      rw [caseFilter_append, hjother c2.name hceq, List.append_nil]
      exact hflight c2 hc2 x (List.mem_of_mem_eraseIdx hx) hxn
  · intro c2 hc2 hr hw2
    simp only [remainingNames_mk] at hr
    simp only [workerNames_mk] at hw2
    by_cases hceq : c2.name = c.name
    · have hc2c : c2 = c := name_inj hnd c2 hc2 c hc hceq
      rw [hc2c]
      show caseFilter c.name (s.emitted ++ [joinEvent w.panicked (caseCompleteEvent runIg c)])
          = expectedStream runIg c
      rw [caseFilter_append, hjself]
      have hold := hflight c hc w hwmem hwn
      rw [hcomp] at hold
      simpa using hold
    · have hnm : c2.name ∉ s.workers.map Worker.wname := by
        intro hmem
        exact hw2 (hpres c2.name hceq hmem)
      show caseFilter c2.name (s.emitted ++ [joinEvent w.panicked (caseCompleteEvent runIg c)])
          = _
      rw [caseFilter_append, hjother c2.name hceq, List.append_nil]
      exact hdone c2 hc2 hr hnm
  · show (s.syncS && w.caseSuccess) = true ↔ _
    constructor
    · intro hS c2 hc2 hr hw2
      have h12 : s.syncS = true ∧ w.caseSuccess = true := by simpa using hS
      obtain ⟨h1, h2⟩ := h12
      simp only [remainingNames_mk] at hr
      simp only [workerNames_mk] at hw2
      by_cases hceq : c2.name = c.name
      · have hc2c : c2 = c := name_inj hnd c2 hc2 c hc hceq
        rw [hc2c, ← hws]
        exact h2
      · apply hsync.mp h1 c2 hc2 hr
        intro hmem
        exact hw2 (hpres c2.name hceq hmem)
    · intro h
      have h2 : runCaseSuccess runIg c = true := by
        apply h c hc
        · simpa only [remainingNames_mk] using hcnq
        · simpa only [workerNames_mk] using hcnotE
      have h1 : s.syncS = true := by
        apply hsync.mpr
        intro c2 hc2 hr hw2
        apply h c2 hc2
        · simpa only [remainingNames_mk] using hr
        · simp only [workerNames_mk]
          intro hmem
          exact hw2 (hEsub c2.name hmem)
      rw [h1, hws, h2]
      rfl
  · intro hempty hrem hsu
    have he2 : s.workers.eraseIdx (ch % s.workers.length) = [] := hempty
    have hsu2 : (s.success && ((s.syncS && w.caseSuccess)
        && !(race && (s.workers.eraseIdx (ch % s.workers.length)).any
          (fun x => !x.caseSuccess)))) = true := hsu
    have h3 := hsu2
    simp only [Bool.and_eq_true] at h3
    show (s.syncS && w.caseSuccess) = true
    rw [h3.2.1.1, h3.2.1.2]
    rfl
  · intro hall
    show (s.success && _) = true
    have h1 : s.success = true := hallpass hall
    have h2 : s.syncS = true := hsync.mpr (fun c2 hc2 _ _ => hall c2 hc2)
    have h3 : (s.workers.eraseIdx (ch % s.workers.length)).any
        (fun x => !x.caseSuccess) = false := by
      rw [List.any_eq_false]
      intro x hx
      obtain ⟨c3, hc3, _, _, hws3, _⟩ := hworkers x (List.mem_of_mem_eraseIdx hx)
      rw [hws3, hall c3 hc3]
      simp
    rw [h1, h2, h3, hws, hall c hc]
    simp
  · show 2 * s.remaining.length + _ + 1 = 2 * s.remaining.length + _
    have hmapE : List.map (fun x : Worker => x.outbox.length)
        (s.workers.eraseIdx (ch % s.workers.length))
        = (List.map (fun x : Worker => x.outbox.length) s.workers).eraseIdx
          (ch % s.workers.length) :=
      eraseIdx_map_comm _ s.workers (ch % s.workers.length)
    have him2 : ch % s.workers.length
        < (List.map (fun x : Worker => x.outbox.length) s.workers).length := by
      simpa using hi
    have hgi : (List.map (fun x : Worker => x.outbox.length)
        s.workers)[ch % s.workers.length] = 1 := by
      rw [List.getElem_map]
      rw [show s.workers[ch % s.workers.length] = w from by rw [← hwi, List.get_eq_getElem]]
      rw [hcomp]
      rfl
    have hsum := sum_eraseIdx_nat (List.map (fun x : Worker => x.outbox.length) s.workers)
      (ch % s.workers.length) (by simpa using hi)
    rw [hgi] at hsum
    rw [hmapE]
    omega
  · refine ⟨joinEvent w.panicked (caseCompleteEvent runIg c), rfl, ?_⟩
    intro hfc hnp
    have hpw : w.panicked = false := by rw [hwp]; exact hnp c hc
    rw [hpw, joinEvent_false_eq] at hfc
    have hfail := isFailedComplete_caseComplete runIg c hfc
    show (s.success && ((s.syncS && w.caseSuccess) && _)) = false
    rw [hws, hfail]
    simp
  · intro hsucc
    have hsucc2 : s.success = true ∧ ((s.syncS && w.caseSuccess)
        && !(race && (s.workers.eraseIdx (ch % s.workers.length)).any
          (fun x => !x.caseSuccess))) = true := by simpa using hsucc
    exact hsucc2.1

theorem recvStep_spec (runIg failFast : Bool) (cases : List CaseSpec)
    (hnd : (cases.map CaseSpec.name).Nodup) (ch : Nat) (race : Bool) (s : CState)
    (hInv : Inv runIg cases s) (hw : s.workers ≠ []) :
    Inv runIg cases (recvStep failFast ch race s).1
    ∧ measureM (recvStep failFast ch race s).1 + 1 = measureM s
    ∧ (recvStep failFast ch race s).1.remaining = s.remaining
    ∧ (∃ ev, (recvStep failFast ch race s).1.emitted = s.emitted ++ [ev]
        ∧ (isFailedComplete ev = true → (∀ c2 ∈ cases, c2.panicsAfterReport = false) →
            (recvStep failFast ch race s).1.success = false))
    ∧ ((recvStep failFast ch race s).1.success = true → s.success = true)
    ∧ (recvStep failFast ch race s).2
        = (!(recvStep failFast ch race s).1.success && failFast) := by
  have hlen : 0 < s.workers.length := List.length_pos.mpr hw
  have hi : ch % s.workers.length < s.workers.length := Nat.mod_lt _ hlen
  have hgw : s.workers.getD (ch % s.workers.length) ⟨"", false, true, []⟩
      = s.workers.get ⟨ch % s.workers.length, hi⟩ := by
    rw [List.getD_eq_getElem _ _ hi, List.get_eq_getElem]
  have hwmem : s.workers.get ⟨ch % s.workers.length, hi⟩ ∈ s.workers :=
    List.get_mem _ _ hi
  obtain ⟨c, hc, hwn, hwp, hws, hout⟩ := hInv.2.1 _ hwmem
  rcases hout with hfull | hcomp
  · exact recvStep_spec_start runIg failFast cases hnd ch race s hInv hw _ hgw c hc hwn
      hwp hws hfull
  · exact recvStep_spec_complete runIg failFast cases hnd ch race s hInv hw _ hgw c hc hwn
      hwp hws hcomp

theorem recvStep_trip (runIg failFast : Bool) (cases : List CaseSpec)
    (ch : Nat) (race : Bool) (s : CState)
    (hInv : Inv runIg cases s) (hw : s.workers ≠ []) :
    ∃ ev, (recvStep failFast ch race s).1.emitted = s.emitted ++ [ev]
      ∧ (isTripFailed ev = true → (recvStep failFast ch race s).1.success = false) := by
  have hlen : 0 < s.workers.length := List.length_pos.mpr hw
  have hi : ch % s.workers.length < s.workers.length := Nat.mod_lt _ hlen
  have hgw : s.workers.getD (ch % s.workers.length) ⟨"", false, true, []⟩
      = s.workers.get ⟨ch % s.workers.length, hi⟩ := by
    rw [List.getD_eq_getElem _ _ hi, List.get_eq_getElem]
  have hwmem : s.workers.get ⟨ch % s.workers.length, hi⟩ ∈ s.workers :=
    List.get_mem _ _ hi
  obtain ⟨c, hc, hwn, hwp, hws, hout⟩ := hInv.2.1 _ hwmem
  rcases hout with hfull | hcomp
  · have hstep := recvStep_eq_start failFast ch race s hw _ hgw c.name
      [caseCompleteEvent runIg c] (by rw [hfull]; rfl)
    rw [hstep]
    refine ⟨Event.CaseStart c.name, rfl, ?_⟩
    intro h
    rw [isTripFailed_caseStart] at h
    exact absurd h Bool.false_ne_true
  · have hstep := recvStep_eq_complete failFast ch race s hw _ hgw c.name RunMode.Test
      (runCaseStatus runIg c) (runCaseMessage runIg c) [] (by rw [hcomp]; rfl)
    rw [hstep]
    refine ⟨joinEvent (s.workers.get ⟨ch % s.workers.length, hi⟩).panicked
      (Event.CaseComplete c.name RunMode.Test (runCaseStatus runIg c)
        (runCaseMessage runIg c)), rfl, ?_⟩
    intro htrip
    have htrip2 : isTripFailed (Event.CaseComplete c.name RunMode.Test
        (runCaseStatus runIg c) (runCaseMessage runIg c)) = true :=
      isTripFailed_joinEvent _ _ htrip
    have hfail : runCaseSuccess runIg c = false :=
      isTripFailed_caseComplete runIg c htrip2
    show (s.success && ((s.syncS
      && (s.workers.get ⟨ch % s.workers.length, hi⟩).caseSuccess) && _)) = false
    rw [hws, hfail]
    simp

/-! ### The coordinating loop -/

theorem measure_zero_terminal (runIg : Bool) (cases : List CaseSpec) (s : CState)
    (hInv : Inv runIg cases s) (hM0 : measureM s = 0) :
    s.workers = [] ∧ s.remaining = [] := by
  simp only [measureM] at hM0
  constructor
  · by_contra hne
    obtain ⟨w, hwmem⟩ := List.exists_mem_of_ne_nil _ hne
    obtain ⟨c, hc, _, _, _, hout⟩ := hInv.2.1 w hwmem
    have hlen1 : 1 ≤ w.outbox.length := by
      rcases hout with h | h <;> rw [h] <;> simp [runCaseEvents]
    have hle : w.outbox.length ≤ (s.workers.map (fun x => x.outbox.length)).sum :=
      List.single_le_sum (fun _ _ => Nat.zero_le _) _
        (List.mem_map_of_mem (fun x => x.outbox.length) hwmem)
    omega
  · have hlen0 : s.remaining.length = 0 := by omega
    exact List.length_eq_zero.mp hlen0

theorem measure_pos_of_not_terminal (runIg : Bool) (cases : List CaseSpec) (s : CState)
    (hInv : Inv runIg cases s)
    (h : ¬ (s.workers.isEmpty && s.remaining.isEmpty) = true) : 1 ≤ measureM s := by
  by_contra hlt
  have hM0 : measureM s = 0 := by omega
  obtain ⟨h1, h2⟩ := measure_zero_terminal runIg cases s hInv hM0
  apply h
  rw [h1, h2]
  rfl

theorem concLoop_spec (runIg failFast : Bool) (threads : Nat) (sched : Nat → Nat)
    (race : Nat → Bool) (cases : List CaseSpec)
    (hnd : (cases.map CaseSpec.name).Nodup) (hth : 1 ≤ threads) :
    ∀ (fuel : Nat) (s : CState), Inv runIg cases s → measureM s ≤ fuel →
      Inv runIg cases (concLoop runIg failFast threads sched race fuel s)
      ∧ ((concLoop runIg failFast threads sched race fuel s).workers = []
          ∧ (concLoop runIg failFast threads sched race fuel s).remaining = []
        ∨ ((concLoop runIg failFast threads sched race fuel s).success = false
            ∧ failFast = true))
      ∧ ((concLoop runIg failFast threads sched race fuel s).success = true →
          s.success = true) := by
  intro fuel
  induction fuel with
  | zero =>
    intro s hInv hM
    have hM0 : measureM s = 0 := Nat.le_zero.mp hM
    obtain ⟨h1, h2⟩ := measure_zero_terminal runIg cases s hInv hM0
    exact ⟨hInv, Or.inl ⟨h1, h2⟩, fun h => h⟩
  | succ fuel ih =>
    intro s hInv hM
    by_cases hterm : (s.workers.isEmpty && s.remaining.isEmpty) = true
    · have hstep : concLoop runIg failFast threads sched race (fuel + 1) s = s := by
        simp only [concLoop, hterm, if_true]
      rw [hstep]
      simp only [Bool.and_eq_true, List.isEmpty_iff] at hterm
      exact ⟨hInv, Or.inl ⟨hterm.1, hterm.2⟩, fun h => h⟩
    · obtain ⟨hInv1, hMeq, hprog⟩ := launchLoop_spec runIg threads cases hnd s.remaining
        s.workers s.emitted s.syncS s.success hInv
      have hMpos : 1 ≤ measureM s := measure_pos_of_not_terminal runIg cases s hInv hterm
      have hM1 : measureM ⟨(launchLoop runIg threads s.remaining s.workers).1,
          (launchLoop runIg threads s.remaining s.workers).2, s.emitted, s.syncS,
          s.success⟩ = measureM s := by
        simp only [measureM]
        exact hMeq
      have hwne : (launchLoop runIg threads s.remaining s.workers).2 ≠ [] := by
        intro hempty
        have hrem0 := hprog hth hempty
        have : measureM ⟨(launchLoop runIg threads s.remaining s.workers).1,
            (launchLoop runIg threads s.remaining s.workers).2, s.emitted, s.syncS,
            s.success⟩ = 0 := by
          simp only [measureM, hempty, hrem0]
          rfl
        omega
      obtain ⟨hInv2, hM2, hrem2, hev2, hmono2, hbrk2⟩ := recvStep_spec runIg failFast cases
        hnd (sched fuel) (race fuel) ⟨(launchLoop runIg threads s.remaining s.workers).1,
          (launchLoop runIg threads s.remaining s.workers).2, s.emitted, s.syncS,
          s.success⟩ hInv1 hwne
      have hstep : concLoop runIg failFast threads sched race (fuel + 1) s
          = if (recvStep failFast (sched fuel) (race fuel)
                ⟨(launchLoop runIg threads s.remaining s.workers).1,
                 (launchLoop runIg threads s.remaining s.workers).2, s.emitted, s.syncS,
                 s.success⟩).2
            then (recvStep failFast (sched fuel) (race fuel)
                ⟨(launchLoop runIg threads s.remaining s.workers).1,
                 (launchLoop runIg threads s.remaining s.workers).2, s.emitted, s.syncS,
                 s.success⟩).1
            else concLoop runIg failFast threads sched race fuel
              (recvStep failFast (sched fuel) (race fuel)
                ⟨(launchLoop runIg threads s.remaining s.workers).1,
                 (launchLoop runIg threads s.remaining s.workers).2, s.emitted, s.syncS,
                 s.success⟩).1 := by
        simp only [concLoop]
        rw [if_neg hterm]
      rw [hstep]
      by_cases hbr : (recvStep failFast (sched fuel) (race fuel)
          ⟨(launchLoop runIg threads s.remaining s.workers).1,
           (launchLoop runIg threads s.remaining s.workers).2, s.emitted, s.syncS,
           s.success⟩).2 = true
      · rw [if_pos hbr]
        rw [hbrk2] at hbr
        have hsf : (recvStep failFast (sched fuel) (race fuel)
            ⟨(launchLoop runIg threads s.remaining s.workers).1,
             (launchLoop runIg threads s.remaining s.workers).2, s.emitted, s.syncS,
             s.success⟩).1.success = false := by
          by_contra hx
          have hx2 : (recvStep failFast (sched fuel) (race fuel)
              ⟨(launchLoop runIg threads s.remaining s.workers).1,
               (launchLoop runIg threads s.remaining s.workers).2, s.emitted, s.syncS,
               s.success⟩).1.success = true := by
            cases hsv : (recvStep failFast (sched fuel) (race fuel)
                ⟨(launchLoop runIg threads s.remaining s.workers).1,
                 (launchLoop runIg threads s.remaining s.workers).2, s.emitted, s.syncS,
                 s.success⟩).1.success
            · exact absurd hsv hx
            · rfl
          rw [hx2] at hbr
          simp at hbr
        have hff : failFast = true := by
          rw [hsf] at hbr
          simpa using hbr
        refine ⟨hInv2, Or.inr ⟨hsf, hff⟩, ?_⟩
        intro hx
        rw [hx] at hsf
        exact absurd hsf (by simp)
      · rw [if_neg hbr]
        have hMle : measureM (recvStep failFast (sched fuel) (race fuel)
            ⟨(launchLoop runIg threads s.remaining s.workers).1,
             (launchLoop runIg threads s.remaining s.workers).2, s.emitted, s.syncS,
             s.success⟩).1 ≤ fuel := by omega
        obtain ⟨ih1, ih2, ih3⟩ := ih _ hInv2 hMle
        refine ⟨ih1, ih2, ?_⟩
        intro hx
        exact hmono2 (ih3 hx)

theorem Inv_init (runIg : Bool) (cases : List CaseSpec) :
    Inv runIg cases ⟨cases, [], [], true, true⟩ := by
  refine ⟨⟨[], rfl⟩, ?_, ?_, ?_, ?_, ?_, ?_, ?_, ?_, ?_⟩
  · intro w hw
    simp at hw
  · simp [workerNames]
  · intro w hw
    simp at hw
  · intro c hc hn
    simp [caseFilter]
  · intro c hc w hw
    simp at hw
  · intro c hc hr hw2
    exfalso
    apply hr
    simp only [remainingNames_mk]
    exact List.mem_map_of_mem CaseSpec.name hc
  · constructor
    · intro _ c hc hr hw2
      exfalso
      apply hr
      simp only [remainingNames_mk]
      exact List.mem_map_of_mem CaseSpec.name hc
    · intro _
      rfl
  · intro h1 h2 h3
    rfl
  · intro _
    rfl

theorem measureM_init (cases : List CaseSpec) :
    measureM ⟨cases, [], [], true, true⟩ = 2 * cases.length := by
  simp [measureM]

theorem Inv_terminal_stream (runIg : Bool) (cases : List CaseSpec) (s : CState)
    (hInv : Inv runIg cases s) (hw : s.workers = []) (hr : s.remaining = []) :
    ∀ c ∈ cases, caseFilter c.name s.emitted = expectedStream runIg c := by
  intro c hc
  apply hInv.2.2.2.2.2.2.1 c hc
  · simp [remainingNames, hr]
  · simp [workerNames, hw]

theorem Inv_terminal_success (runIg : Bool) (cases : List CaseSpec) (s : CState)
    (hInv : Inv runIg cases s) (hw : s.workers = []) (hr : s.remaining = [])
    (hs : s.success = true) : ∀ c ∈ cases, runCaseSuccess runIg c = true := by
  intro c hc
  have hsy : s.syncS = true := hInv.2.2.2.2.2.2.2.2.1 hw hr hs
  exact hInv.2.2.2.2.2.2.2.1.mp hsy c hc (by simp [remainingNames, hr])
    (by simp [workerNames, hw])

/-! ### The sequential runner -/

theorem runSeq_success (runIg failFast : Bool) :
    ∀ (l : List CaseSpec) (b : Bool),
      (runSeq runIg failFast l b).2 = (b && l.all (runCaseSuccess runIg)) := by
  intro l
  induction l with
  | nil =>
    intro b
    simp [runSeq]
  | cons c rest ih =>
    intro b
    unfold runSeq
    by_cases hbr : (!(b && runCaseSuccess runIg c) && failFast) = true
    · simp only [hbr, if_true]
      have h1 : (b && runCaseSuccess runIg c) = false := by
        cases h : (b && runCaseSuccess runIg c)
        · rfl
        · rw [h] at hbr
          simp at hbr
      show (b && runCaseSuccess runIg c) = _
      rw [List.all_cons, ← Bool.and_assoc, h1]
      rfl
    · simp only [hbr, if_false]
      have hsr := ih (b && runCaseSuccess runIg c)
      cases hpair : runSeq runIg failFast rest (b && runCaseSuccess runIg c) with
      | mk evs s2 =>
        rw [hpair] at hsr
        have hsr2 : s2 = (b && runCaseSuccess runIg c && rest.all (runCaseSuccess runIg)) :=
          hsr
        simp only [hpair]
        show s2 = _
        rw [hsr2, List.all_cons, Bool.and_assoc]

theorem runSeq_events_noFailFast (runIg : Bool) :
    ∀ (l : List CaseSpec) (b : Bool),
      (runSeq runIg false l b).1 = l.flatMap (runCaseEvents runIg) := by
  intro l
  induction l with
  | nil =>
    intro b
    simp [runSeq]
  | cons c rest ih =>
    intro b
    unfold runSeq
    simp only [Bool.and_false, Bool.false_eq_true, if_false]
    have hsr := ih (b && runCaseSuccess runIg c)
    cases hpair : runSeq runIg false rest (b && runCaseSuccess runIg c) with
    | mk evs s2 =>
      rw [hpair] at hsr
      have hsr2 : evs = rest.flatMap (runCaseEvents runIg) := hsr
      simp only [hpair]
      show runCaseEvents runIg c ++ evs = _
      rw [hsr2, List.flatMap_cons]

theorem caseFilter_runCaseEvents_self (runIg : Bool) (c : CaseSpec) :
    caseFilter c.name (runCaseEvents runIg c) = runCaseEvents runIg c := by
  simp [caseFilter, runCaseEvents, isCaseEventOf]

theorem caseFilter_runCaseEvents_other (runIg : Bool) (c : CaseSpec) (m : String)
    (h : c.name ≠ m) : caseFilter m (runCaseEvents runIg c) = [] := by
  simp only [caseFilter, runCaseEvents, List.filter, isCaseEventOf_caseStart,
    isCaseEventOf_complete, beq_eq_false_iff_ne.mpr h]

theorem seq_caseFilter_none (runIg : Bool) (m : String) :
    ∀ (l : List CaseSpec), m ∉ l.map CaseSpec.name →
      caseFilter m (l.flatMap (runCaseEvents runIg)) = [] := by
  intro l
  induction l with
  | nil =>
    intro _
    rfl
  | cons c rest ih =>
    intro hm
    simp only [List.map_cons, List.mem_cons, not_or] at hm
    rw [List.flatMap_cons, caseFilter_append, caseFilter_runCaseEvents_other runIg c m
      (fun he => hm.1 he.symm), ih hm.2]
    rfl

theorem seq_caseFilter (runIg : Bool) :
    ∀ (l : List CaseSpec), (l.map CaseSpec.name).Nodup → ∀ c ∈ l,
      caseFilter c.name (l.flatMap (runCaseEvents runIg)) = runCaseEvents runIg c := by
  intro l
  induction l with
  | nil =>
    intro _ c hc
    simp at hc
  | cons d rest ih =>
    intro hnd c hc
    simp only [List.map_cons, List.nodup_cons] at hnd
    rw [List.flatMap_cons, caseFilter_append]
    rcases List.mem_cons.mp hc with rfl | hc2
    · rw [caseFilter_runCaseEvents_self, seq_caseFilter_none runIg c.name rest hnd.1,
        List.append_nil]
    · have hne : d.name ≠ c.name := by
        intro he
        exact hnd.1 (he ▸ List.mem_map_of_mem CaseSpec.name hc2)
      rw [caseFilter_runCaseEvents_other runIg d c.name hne, ih hnd.2 c hc2]
      rfl

/-! ### Discovery output facts -/

theorem discover_decomp (H : HashFn) (now : Nat) (opts : TestOpts) (cases : List CaseSpec) :
    ∃ shuffled : List CaseSpec,
      (discover H now opts cases).selected
          = shuffled.filter (fun c => retainCase opts c.name)
      ∧ (shuffled.map CaseSpec.name).Perm (cases.map CaseSpec.name)
      ∧ shuffled.length = cases.length := by
  cases hgs : getShuffleSeed now opts with
  | none =>
    refine ⟨sortCases cases, by simp [discover, hgs], (sortCases_perm cases).map _, ?_⟩
    exact (sortCases_perm cases).length_eq
  | some sd =>
    refine ⟨shuffleTests H sd (sortCases cases), by simp [discover, hgs], ?_, ?_⟩
    · have h1 : (shuffleTests H sd (sortCases cases)).map CaseSpec.name
          = shuffleSteps H (sortCases cases).length
            ⟨sd, H.hashNames ((sortCases cases).map CaseSpec.name)⟩
            ((sortCases cases).map CaseSpec.name) 0 := by
        unfold shuffleTests shuffle
        rw [shuffleSteps_map]
      rw [h1]
      exact (shuffleSteps_perm H _ _ _ _).trans ((sortCases_perm cases).map _)
    · show (shuffleSteps H _ _ _ _).length = _
      rw [shuffleSteps_length]
      exact (sortCases_perm cases).length_eq

theorem discover_selected_nodup (H : HashFn) (now : Nat) (opts : TestOpts)
    (cases : List CaseSpec) (hnd : (cases.map CaseSpec.name).Nodup) :
    (((discover H now opts cases).selected).map CaseSpec.name).Nodup := by
  obtain ⟨shuffled, hsel, hperm, _⟩ := discover_decomp H now opts cases
  rw [hsel]
  have hshnd : (shuffled.map CaseSpec.name).Nodup := hperm.symm.nodup hnd
  exact ((List.filter_sublist shuffled).map CaseSpec.name).nodup hshnd

theorem discover_selected_length_le (H : HashFn) (now : Nat) (opts : TestOpts)
    (cases : List CaseSpec) :
    (discover H now opts cases).selected.length ≤ cases.length := by
  obtain ⟨shuffled, hsel, _, hlen⟩ := discover_decomp H now opts cases
  rw [hsel, ← hlen]
  exact List.length_filter_le _ _

theorem caseFilter_discover_shape (opts : TestOpts) (m : String) (l : List CaseSpec)
    (sd : Option Nat) :
    caseFilter m (Event.DiscoverStart
      :: (l.map (fun c => Event.DiscoverCase c.name RunMode.Test (retainCase opts c.name))
          ++ [Event.DiscoverComplete sd])) = [] := by
  show caseFilter m (Event.DiscoverStart
    :: (l.map (fun c => Event.DiscoverCase c.name RunMode.Test (retainCase opts c.name))
      ++ [Event.DiscoverComplete sd])) = []
  have h1 : ∀ l2 : List CaseSpec, caseFilter m
      (l2.map (fun c => Event.DiscoverCase c.name RunMode.Test (retainCase opts c.name)))
      = [] := by
    intro l2
    induction l2 with
    | nil => rfl
    | cons c rest ih =>
      simp only [List.map_cons, caseFilter, List.filter]
      show (List.map (fun c => Event.DiscoverCase c.name RunMode.Test
        (retainCase opts c.name)) rest).filter (isCaseEventOf m) = []
      exact ih
  show (Event.DiscoverStart
      :: (l.map (fun c => Event.DiscoverCase c.name RunMode.Test (retainCase opts c.name))
        ++ [Event.DiscoverComplete sd])).filter (isCaseEventOf m) = []
  rw [List.filter_cons]
  simp only [isCaseEventOf, if_false]
  rw [List.filter_append]
  have h2 := h1 l
  simp only [caseFilter] at h2
  rw [h2]
  rfl

theorem caseFilter_discover_events (H : HashFn) (now : Nat) (opts : TestOpts)
    (cases : List CaseSpec) (m : String) :
    caseFilter m (discover H now opts cases).events = [] := by
  unfold discover
  exact caseFilter_discover_shape opts m _ _

theorem caseFilter_suite_wrap (m : String) (l : List Event) :
    caseFilter m (Event.SuiteStart :: (l ++ [Event.SuiteComplete])) = caseFilter m l := by
  show (Event.SuiteStart :: (l ++ [Event.SuiteComplete])).filter (isCaseEventOf m)
    = caseFilter m l
  rw [List.filter_cons]
  simp only [isCaseEventOf, if_false]
  rw [List.filter_append]
  show caseFilter m l ++ _ = caseFilter m l
  simp [caseFilter, isCaseEventOf]

/-- Per-case event stream of `run`, for any worker count, when `fail_fast` is
off: exactly one `CaseStart` then one `CaseComplete`. -/
theorem run_case_events_once (opts : TestOpts) (sched : Nat → Nat) (race : Nat → Bool)
    (fuel : Nat) (sel : List CaseSpec) (hndsel : (sel.map CaseSpec.name).Nodup)
    (hff : opts.failFast = false) (hfuel : 2 * sel.length ≤ fuel) :
    ∀ c ∈ sel, ∃ st msg,
      caseFilter c.name (run opts sched race fuel sel).events
        = [Event.CaseStart c.name, Event.CaseComplete c.name RunMode.Test st msg] := by
  intro c hc
  unfold run
  by_cases hth : 1 < opts.testThreads.getD 1
  · rw [if_pos hth]
    show ∃ st msg, caseFilter c.name (Event.SuiteStart :: ((concLoop
      (runIgnoredFlag opts.runIgnored) opts.failFast (opts.testThreads.getD 1) sched race
      fuel ⟨sel, [], [], true, true⟩).emitted ++ [Event.SuiteComplete])) = _
    rw [caseFilter_suite_wrap, hff]
    obtain ⟨hInvF, hdisj, _⟩ := concLoop_spec (runIgnoredFlag opts.runIgnored) false
      (opts.testThreads.getD 1) sched race sel hndsel (by omega) fuel
      ⟨sel, [], [], true, true⟩ (Inv_init _ _) (by rw [measureM_init]; omega)
    rcases hdisj with ⟨hw0, hr0⟩ | ⟨_, hfftrue⟩
    · have hstream := Inv_terminal_stream _ sel _ hInvF hw0 hr0 c hc
      obtain ⟨st2, ms2, hje⟩ := joinEvent_complete_shape c.panicsAfterReport c.name
        RunMode.Test (runCaseStatus (runIgnoredFlag opts.runIgnored) c)
        (runCaseMessage (runIgnoredFlag opts.runIgnored) c)
      refine ⟨st2, ms2, ?_⟩
      rw [hstream]
      show [Event.CaseStart c.name, joinEvent c.panicsAfterReport
        (caseCompleteEvent (runIgnoredFlag opts.runIgnored) c)] = _
      rw [show joinEvent c.panicsAfterReport
          (caseCompleteEvent (runIgnoredFlag opts.runIgnored) c)
          = Event.CaseComplete c.name RunMode.Test st2 ms2 from hje]
    · exact absurd hfftrue (by simp)
  · rw [if_neg hth, hff]
    have hsr := runSeq_events_noFailFast (runIgnoredFlag opts.runIgnored) sel true
    cases hpair : runSeq (runIgnoredFlag opts.runIgnored) false sel true with
    | mk evs s2 =>
      rw [hpair] at hsr
      have hevs : evs = sel.flatMap (runCaseEvents (runIgnoredFlag opts.runIgnored)) := hsr
      refine ⟨runCaseStatus (runIgnoredFlag opts.runIgnored) c,
        runCaseMessage (runIgnoredFlag opts.runIgnored) c, ?_⟩
      show caseFilter c.name (Event.SuiteStart :: (evs ++ [Event.SuiteComplete]))
        = [Event.CaseStart c.name, Event.CaseComplete c.name RunMode.Test
            (runCaseStatus (runIgnoredFlag opts.runIgnored) c)
            (runCaseMessage (runIgnoredFlag opts.runIgnored) c)]
      rw [caseFilter_suite_wrap, hevs,
        seq_caseFilter (runIgnoredFlag opts.runIgnored) sel hndsel c hc]
      rfl

/-! ### Claim C1 -/

/-- **C1**: for every case set (with the run's names unique) and every worker
count ≥ 1, each case selected by filtering produces exactly one `CaseStart`
and exactly one `CaseComplete` in the run's event stream, with the
`CaseStart` first: the sub-stream of events carrying the case's name is
exactly `[CaseStart, CaseComplete]`. -/
theorem selected_case_start_complete_once (H : HashFn) (now : Nat) (sched : Nat → Nat)
    (race : Nat → Bool) (fuel : Nat) (opts : TestOpts) (cases : List CaseSpec)
    (hnd : (cases.map CaseSpec.name).Nodup) (hff : opts.failFast = false)
    (hlist : opts.list = false) (hfuel : 2 * cases.length ≤ fuel) :
    ∀ c ∈ (discover H now opts cases).selected, ∃ st msg,
      caseFilter c.name (harnessMain H now sched race fuel (Except.ok opts) cases).events
        = [Event.CaseStart c.name, Event.CaseComplete c.name RunMode.Test st msg] := by
  intro c hc
  have hndsel := discover_selected_nodup H now opts cases hnd
  have hlenle := discover_selected_length_le H now opts cases
  have hEffList : (if (discover H now opts cases).selected.length == 1
      then { opts with testThreads := some 1 } else opts).list = false := by
    split
    · simpa using hlist
    · exact hlist
  have hEffFF : (if (discover H now opts cases).selected.length == 1
      then { opts with testThreads := some 1 } else opts).failFast = false := by
    split
    · simpa using hff
    · exact hff
  have hmain : (harnessMain H now sched race fuel (Except.ok opts) cases).events
      = (discover H now opts cases).events
        ++ (run (if (discover H now opts cases).selected.length == 1
              then { opts with testThreads := some 1 } else opts) sched race fuel
            (discover H now opts cases).selected).events := by
    show ((if (if (discover H now opts cases).selected.length == 1
        then { opts with testThreads := some 1 } else opts).list
      then _ else _ : MainOutput)).events = _
    rw [if_neg (by rw [hEffList]; simp)]
  rw [hmain, caseFilter_append, caseFilter_discover_events]
  have hres := run_case_events_once (if (discover H now opts cases).selected.length == 1
      then { opts with testThreads := some 1 } else opts) sched race fuel
    (discover H now opts cases).selected hndsel hEffFF (by omega) c hc
  simpa using hres

theorem selected_case_start_complete_once_witness :
    ((([⟨"a", fun _ => .normal none, false⟩,
        ⟨"b", fun _ => .normal (some (.failed "x")), false⟩] : List CaseSpec).map
          CaseSpec.name).Nodup
      ∧ ({ } : TestOpts).failFast = false ∧ ({ } : TestOpts).list = false
      ∧ 2 * ([⟨"a", fun _ => .normal none, false⟩,
          ⟨"b", fun _ => .normal (some (.failed "x")), false⟩] : List CaseSpec).length ≤ 8)
    ∧ ∀ c ∈ (discover ⟨fun a b => a + 2 * b, fun l => l.length⟩ 0 { }
        [⟨"a", fun _ => .normal none, false⟩,
         ⟨"b", fun _ => .normal (some (.failed "x")), false⟩]).selected, ∃ st msg,
      caseFilter c.name (harnessMain ⟨fun a b => a + 2 * b, fun l => l.length⟩ 0
          (fun _ => 0) (fun _ => false) 8 (Except.ok { })
          [⟨"a", fun _ => .normal none, false⟩,
           ⟨"b", fun _ => .normal (some (.failed "x")), false⟩]).events
        = [Event.CaseStart c.name, Event.CaseComplete c.name RunMode.Test st msg] := by
  refine ⟨⟨by decide, rfl, rfl, by decide⟩, ?_⟩
  exact selected_case_start_complete_once ⟨fun a b => a + 2 * b, fun l => l.length⟩ 0
    (fun _ => 0) (fun _ => false) 8 { }
    [⟨"a", fun _ => .normal none, false⟩,
     ⟨"b", fun _ => .normal (some (.failed "x")), false⟩]
    (by decide) rfl rfl (by decide)

/-! ### Claim C10 -/

/-- **C10**: in concurrent mode, when a worker thread panics after its case
body already completed with a passing result, the coordinator rewrites the
case's `CaseComplete` to `Failed` with message
`"panicked after reporting success"` before notifying. -/
theorem join_rewrites_pass_after_panic (opts : TestOpts) (sched : Nat → Nat)
    (race : Nat → Bool) (fuel : Nat) (cases : List CaseSpec) (c : CaseSpec)
    (hnd : (cases.map CaseSpec.name).Nodup) (hth : 1 < opts.testThreads.getD 1)
    (hff : opts.failFast = false) (hfuel : 2 * cases.length ≤ fuel) (hc : c ∈ cases)
    (hpass : runCaseStatus (runIgnoredFlag opts.runIgnored) c = none)
    (hpanic : c.panicsAfterReport = true) :
    caseFilter c.name (run opts sched race fuel cases).events
      = [Event.CaseStart c.name,
         Event.CaseComplete c.name RunMode.Test (some RunStatus.Failed)
           (some "panicked after reporting success")] := by
  unfold run
  rw [if_pos hth]
  show caseFilter c.name (Event.SuiteStart :: ((concLoop (runIgnoredFlag opts.runIgnored)
    opts.failFast (opts.testThreads.getD 1) sched race fuel
    ⟨cases, [], [], true, true⟩).emitted ++ [Event.SuiteComplete])) = _
  rw [caseFilter_suite_wrap, hff]
  obtain ⟨hInvF, hdisj, _⟩ := concLoop_spec (runIgnoredFlag opts.runIgnored) false
    (opts.testThreads.getD 1) sched race cases hnd (by omega) fuel
    ⟨cases, [], [], true, true⟩ (Inv_init _ _) (by rw [measureM_init]; omega)
  rcases hdisj with ⟨hw0, hr0⟩ | ⟨_, hfftrue⟩
  · rw [Inv_terminal_stream _ cases _ hInvF hw0 hr0 c hc]
    show [Event.CaseStart c.name, joinEvent c.panicsAfterReport
      (Event.CaseComplete c.name RunMode.Test (runCaseStatus (runIgnoredFlag opts.runIgnored) c)
        (runCaseMessage (runIgnoredFlag opts.runIgnored) c))] = _
    rw [hpanic, hpass]
    rfl
  · exact absurd hfftrue (by simp)

theorem join_rewrites_pass_after_panic_witness :
    ((([⟨"a", fun _ => .normal none, true⟩,
        ⟨"b", fun _ => .normal none, false⟩] : List CaseSpec).map CaseSpec.name).Nodup
      ∧ 1 < ({ testThreads := some 2 } : TestOpts).testThreads.getD 1
      ∧ ({ testThreads := some 2 } : TestOpts).failFast = false
      ∧ runCaseStatus (runIgnoredFlag ({ testThreads := some 2 } : TestOpts).runIgnored)
          ⟨"a", fun _ => .normal none, true⟩ = none)
    ∧ caseFilter "a" (run { testThreads := some 2 } (fun _ => 0) (fun _ => false) 8
        [⟨"a", fun _ => .normal none, true⟩, ⟨"b", fun _ => .normal none, false⟩]).events
      = [Event.CaseStart "a",
         Event.CaseComplete "a" RunMode.Test (some RunStatus.Failed)
           (some "panicked after reporting success")] := by
  refine ⟨⟨by decide, by decide, rfl, rfl⟩, ?_⟩
  exact join_rewrites_pass_after_panic { testThreads := some 2 } (fun _ => 0)
    (fun _ => false) 8 [⟨"a", fun _ => .normal none, true⟩,
      ⟨"b", fun _ => .normal none, false⟩] ⟨"a", fun _ => .normal none, true⟩
    (by decide) (by decide) rfl (by decide) (List.mem_cons_self _ _) rfl rfl

/-! ### Claim C7 -/

/-- The success value `run` returns equals "every case passed", for any worker
count and any fail-fast setting. -/
theorem run_success_eq_all (opts : TestOpts) (sched : Nat → Nat) (race : Nat → Bool)
    (fuel : Nat) (sel : List CaseSpec) (hndsel : (sel.map CaseSpec.name).Nodup)
    (hfuel : 2 * sel.length ≤ fuel) :
    (run opts sched race fuel sel).success
      = sel.all (runCaseSuccess (runIgnoredFlag opts.runIgnored)) := by
  unfold run
  by_cases hth : 1 < opts.testThreads.getD 1
  · rw [if_pos hth]
    show (concLoop (runIgnoredFlag opts.runIgnored) opts.failFast
      (opts.testThreads.getD 1) sched race fuel ⟨sel, [], [], true, true⟩).success = _
    obtain ⟨hInvF, hdisj, _⟩ := concLoop_spec (runIgnoredFlag opts.runIgnored) opts.failFast
      (opts.testThreads.getD 1) sched race sel hndsel (by omega) fuel
      ⟨sel, [], [], true, true⟩ (Inv_init _ _) (by rw [measureM_init]; omega)
    cases hall : sel.all (runCaseSuccess (runIgnoredFlag opts.runIgnored)) with
    | true =>
      exact hInvF.2.2.2.2.2.2.2.2.2 (fun c hc => List.all_eq_true.mp hall c hc)
    | false =>
      cases hsv : (concLoop (runIgnoredFlag opts.runIgnored) opts.failFast
          (opts.testThreads.getD 1) sched race fuel ⟨sel, [], [], true, true⟩).success with
      | false => rfl
      | true =>
        exfalso
        rcases hdisj with ⟨hw0, hr0⟩ | ⟨hf, _⟩
        · have hpassall := Inv_terminal_success _ sel _ hInvF hw0 hr0 hsv
          have h2 : sel.all (runCaseSuccess (runIgnoredFlag opts.runIgnored)) = true :=
            List.all_eq_true.mpr (fun c hc => hpassall c hc)
          rw [hall] at h2
          exact absurd h2 (by simp)
        · rw [hsv] at hf
          exact absurd hf (by simp)
  · rw [if_neg hth]
    have hsr := runSeq_success (runIgnoredFlag opts.runIgnored) opts.failFast sel true
    cases hpair : runSeq (runIgnoredFlag opts.runIgnored) opts.failFast sel true with
    | mk evs s2 =>
      rw [hpair] at hsr
      have hs2 : s2 = (true && sel.all (runCaseSuccess (runIgnoredFlag opts.runIgnored))) :=
        hsr
      show s2 = _
      rw [hs2]
      simp

/-- **C7**: the process exit code is 0 when the run completes with no failed
cases (including list-only runs), 101 when one or more cases failed, and 1
for a configuration/parse error surfaced before any discovery occurs. -/
theorem exit_code_characterization (H : HashFn) (now : Nat) (sched : Nat → Nat)
    (race : Nat → Bool) (fuel : Nat) (parsed : Except String TestOpts)
    (cases : List CaseSpec) (hnd : (cases.map CaseSpec.name).Nodup)
    (hfuel : 2 * cases.length ≤ fuel) :
    (harnessMain H now sched race fuel parsed cases).exitCode
      = match parsed with
        | .error _ => 1
        | .ok opts =>
            if opts.list then 0
            else if (discover H now opts cases).selected.all
                (runCaseSuccess (runIgnoredFlag opts.runIgnored)) then 0 else 101 := by
  cases parsed with
  | error e => rfl
  | ok opts =>
    show (harnessMain H now sched race fuel (Except.ok opts) cases).exitCode
      = if opts.list then 0
        else if (discover H now opts cases).selected.all
            (runCaseSuccess (runIgnoredFlag opts.runIgnored)) then 0 else 101
    have hndsel := discover_selected_nodup H now opts cases hnd
    have hlenle := discover_selected_length_le H now opts cases
    have hEffList : (if (discover H now opts cases).selected.length == 1
        then { opts with testThreads := some 1 } else opts).list = opts.list := by
      split <;> rfl
    have hEffRunIg : (if (discover H now opts cases).selected.length == 1
        then { opts with testThreads := some 1 } else opts).runIgnored = opts.runIgnored := by
      split <;> rfl
    by_cases hlist : opts.list = true
    · have hmain : (harnessMain H now sched race fuel (Except.ok opts) cases).exitCode
          = 0 := by
        show ((if (if (discover H now opts cases).selected.length == 1
            then { opts with testThreads := some 1 } else opts).list
          then _ else _ : MainOutput)).exitCode = 0
        rw [if_pos (by rw [hEffList]; exact hlist)]
      rw [hmain, if_pos hlist]
    · have hlist2 : opts.list = false := by
        cases h : opts.list
        · rfl
        · exact absurd h hlist
      have hmain : (harnessMain H now sched race fuel (Except.ok opts) cases).exitCode
          = (if (run (if (discover H now opts cases).selected.length == 1
                then { opts with testThreads := some 1 } else opts) sched race fuel
              (discover H now opts cases).selected).success then 0 else 101) := by
        show ((if (if (discover H now opts cases).selected.length == 1
            then { opts with testThreads := some 1 } else opts).list
          then _ else _ : MainOutput)).exitCode = _
        rw [if_neg (by rw [hEffList, hlist2]; simp)]
      rw [hmain]
      rw [run_success_eq_all _ sched race fuel _ hndsel (by omega), hEffRunIg,
        if_neg (show ¬ opts.list = true by rw [hlist2]; simp)]

theorem exit_code_characterization_witness :
    ((([⟨"a", fun _ => .normal none, false⟩,
        ⟨"b", fun _ => .panics (some "boom"), false⟩] : List CaseSpec).map
          CaseSpec.name).Nodup
      ∧ 2 * ([⟨"a", fun _ => .normal none, false⟩,
          ⟨"b", fun _ => .panics (some "boom"), false⟩] : List CaseSpec).length ≤ 8)
    ∧ (harnessMain ⟨fun a b => a + 2 * b, fun l => l.length⟩ 0 (fun _ => 0)
        (fun _ => false) 8 (Except.ok { })
        [⟨"a", fun _ => .normal none, false⟩,
         ⟨"b", fun _ => .panics (some "boom"), false⟩]).exitCode
      = if ({ } : TestOpts).list then 0
        else if (discover ⟨fun a b => a + 2 * b, fun l => l.length⟩ 0 { }
            [⟨"a", fun _ => .normal none, false⟩,
             ⟨"b", fun _ => .panics (some "boom"), false⟩]).selected.all
          (runCaseSuccess (runIgnoredFlag ({ } : TestOpts).runIgnored)) then 0 else 101 := by
  refine ⟨⟨by decide, by decide⟩, ?_⟩
  exact exit_code_characterization ⟨fun a b => a + 2 * b, fun l => l.length⟩ 0 (fun _ => 0)
    (fun _ => false) 8 (Except.ok { })
    [⟨"a", fun _ => .normal none, false⟩, ⟨"b", fun _ => .panics (some "boom"), false⟩]
    (by decide) (by decide)

/-! ### Claim C8 -/

theorem discover_events_decomp (H : HashFn) (now : Nat) (opts : TestOpts)
    (cases : List CaseSpec) :
    ∃ shuffled : List CaseSpec,
      (discover H now opts cases).events
        = Event.DiscoverStart
          :: (shuffled.map (fun c => Event.DiscoverCase c.name RunMode.Test
                (retainCase opts c.name))
              ++ [Event.DiscoverComplete (getShuffleSeed now opts)])
      ∧ shuffled.length = cases.length := by
  cases hgs : getShuffleSeed now opts with
  | none =>
    refine ⟨sortCases cases, by simp [discover, hgs], (sortCases_perm cases).length_eq⟩
  | some sd =>
    refine ⟨shuffleTests H sd (sortCases cases), by simp [discover, hgs], ?_⟩
    show (shuffleSteps H _ _ _ _).length = _
    rw [shuffleSteps_length]
    exact (sortCases_perm cases).length_eq

theorem countP_discoverCase_map (opts : TestOpts) (l : List CaseSpec) :
    (l.map (fun c => Event.DiscoverCase c.name RunMode.Test
      (retainCase opts c.name))).countP isDiscoverCase = l.length := by
  induction l with
  | nil => rfl
  | cons c rest ih =>
    simp only [List.map_cons, List.countP_cons, ih, isDiscoverCase]
    rfl

theorem filter_startish_discover_map (opts : TestOpts) (l : List CaseSpec) :
    (l.map (fun c => Event.DiscoverCase c.name RunMode.Test
      (retainCase opts c.name))).filter (fun e => isSuiteStart e || isCaseStart e) = [] := by
  induction l with
  | nil => rfl
  | cons c rest ih =>
    simp only [List.map_cons, List.filter, isSuiteStart, isCaseStart]
    exact ih

/-- **C8**: under `--list` no case body is ever executed — the whole event
stream is the discovery stream, with no `SuiteStart` and no `CaseStart` —
and discovery emits exactly one `DiscoverCase` per registered case. -/
theorem list_only_no_execution (H : HashFn) (now : Nat) (sched : Nat → Nat)
    (race : Nat → Bool) (fuel : Nat) (opts : TestOpts) (cases : List CaseSpec)
    (hlist : opts.list = true) :
    (harnessMain H now sched race fuel (Except.ok opts) cases).events
        = (discover H now opts cases).events
    ∧ (harnessMain H now sched race fuel (Except.ok opts) cases).events.countP
        isDiscoverCase = cases.length
    ∧ (harnessMain H now sched race fuel (Except.ok opts) cases).events.filter
        (fun e => isSuiteStart e || isCaseStart e) = [] := by
  have hmain : (harnessMain H now sched race fuel (Except.ok opts) cases).events
      = (discover H now opts cases).events := by
    show ((if (if (discover H now opts cases).selected.length == 1
        then { opts with testThreads := some 1 } else opts).list
      then _ else _ : MainOutput)).events = _
    rw [if_pos (by split <;> exact hlist)]
  obtain ⟨shuffled, hev, hlen⟩ := discover_events_decomp H now opts cases
  refine ⟨hmain, ?_, ?_⟩
  · rw [hmain, hev]
    rw [List.countP_cons_of_neg _ _ (by simp [isDiscoverCase]), List.countP_append]
    rw [countP_discoverCase_map opts shuffled, hlen]
    rfl
  · rw [hmain, hev]
    show (Event.DiscoverStart :: (_ ++ [Event.DiscoverComplete _])).filter
      (fun e => isSuiteStart e || isCaseStart e) = []
    rw [List.filter_cons, if_neg (by decide), List.filter_append,
      filter_startish_discover_map opts shuffled]
    rfl

theorem list_only_no_execution_witness :
    ({ list := true } : TestOpts).list = true
    ∧ ((harnessMain ⟨fun a b => a + 2 * b, fun l => l.length⟩ 0 (fun _ => 0)
        (fun _ => false) 8 (Except.ok { list := true })
        [⟨"a", fun _ => .normal none, false⟩]).events
      = (discover ⟨fun a b => a + 2 * b, fun l => l.length⟩ 0 { list := true }
        [⟨"a", fun _ => .normal none, false⟩]).events) := by
  refine ⟨rfl, ?_⟩
  exact (list_only_no_execution ⟨fun a b => a + 2 * b, fun l => l.length⟩ 0 (fun _ => 0)
    (fun _ => false) 8 { list := true } [⟨"a", fun _ => .normal none, false⟩] rfl).1

/-! ### Claim C3 -/

theorem filter_not_caseEvent_self (runIg : Bool) (c : CaseSpec) :
    (runCaseEvents runIg c).filter (fun e => !isCaseEventOf c.name e) = [] := by
  simp [runCaseEvents, isCaseEventOf]

theorem filter_not_caseEvent_other (runIg : Bool) (d : CaseSpec) (n : String)
    (h : d.name ≠ n) :
    (runCaseEvents runIg d).filter (fun e => !isCaseEventOf n e) = runCaseEvents runIg d := by
  simp only [runCaseEvents, List.filter, isCaseEventOf_caseStart, isCaseEventOf_complete,
    beq_eq_false_iff_ne.mpr h, Bool.not_false]

theorem filter_not_caseEvent_flatMap (runIg : Bool) (n : String) :
    ∀ (l : List CaseSpec), n ∉ l.map CaseSpec.name →
      (l.flatMap (runCaseEvents runIg)).filter (fun e => !isCaseEventOf n e)
        = l.flatMap (runCaseEvents runIg) := by
  intro l
  induction l with
  | nil => intro _; rfl
  | cons d rest ih =>
    intro hn
    simp only [List.map_cons, List.mem_cons, not_or] at hn
    rw [List.flatMap_cons, List.filter_append,
      filter_not_caseEvent_other runIg d n (fun he => hn.1 he.symm), ih hn.2]

/-- **C3**: a case whose body panics is caught by `run_case` and reported as
`Failed` with the synthesized panic message; in a sequential run without
fail-fast, removing that case's events from the stream leaves exactly the
stream of the sibling cases on their own, and the run's success is false. -/
theorem panic_caught_and_isolated (runIg : Bool) (payload : Option String) (nm : String)
    (pa : Bool) (l1 l2 : List CaseSpec)
    (hnot : nm ∉ (l1 ++ l2).map CaseSpec.name) :
    runCaseEvents runIg ⟨nm, fun _ => .panics payload, pa⟩
      = [Event.CaseStart nm, Event.CaseComplete nm RunMode.Test (some RunStatus.Failed)
          (some (panicMessage payload))]
    ∧ (runSeq runIg false (l1 ++ ⟨nm, fun _ => .panics payload, pa⟩ :: l2) true).1.filter
        (fun e => !isCaseEventOf nm e)
      = (runSeq runIg false (l1 ++ l2) true).1
    ∧ (runSeq runIg false (l1 ++ ⟨nm, fun _ => .panics payload, pa⟩ :: l2) true).2
        = false := by
  rw [List.map_append] at hnot
  have hn1 : nm ∉ l1.map CaseSpec.name := fun h => hnot (List.mem_append_left _ h)
  have hn2 : nm ∉ l2.map CaseSpec.name := fun h => hnot (List.mem_append_right _ h)
  refine ⟨rfl, ?_, ?_⟩
  · rw [runSeq_events_noFailFast, runSeq_events_noFailFast, List.flatMap_append,
      List.flatMap_cons, List.flatMap_append, List.filter_append, List.filter_append,
      filter_not_caseEvent_flatMap runIg nm l1 hn1,
      filter_not_caseEvent_flatMap runIg nm l2 hn2]
    have hself : (runCaseEvents runIg ⟨nm, fun _ => .panics payload, pa⟩).filter
        (fun e => !isCaseEventOf nm e) = [] := filter_not_caseEvent_self runIg _
    rw [hself]
    rfl
  · have hsr := runSeq_success runIg false
      (l1 ++ ⟨nm, fun _ => .panics payload, pa⟩ :: l2) true
    cases hpair : runSeq runIg false (l1 ++ ⟨nm, fun _ => .panics payload, pa⟩ :: l2) true
      with
    | mk evs s2 =>
      rw [hpair] at hsr
      have hs2 : s2 = (true && (l1 ++ ⟨nm, fun _ => .panics payload, pa⟩ :: l2).all
          (runCaseSuccess runIg)) := hsr
      show s2 = false
      rw [hs2]
      simp only [Bool.true_and, List.all_append, List.all_cons]
      have hfail : runCaseSuccess runIg ⟨nm, fun _ => .panics payload, pa⟩ = false := rfl
      rw [hfail]
      simp

theorem panic_caught_and_isolated_witness :
    ("p" ∉ (([⟨"a", fun _ => .normal none, false⟩] : List CaseSpec) ++ []).map
        CaseSpec.name)
    ∧ (runCaseEvents false ⟨"p", fun _ => .panics (some "xyz"), false⟩
        = [Event.CaseStart "p", Event.CaseComplete "p" RunMode.Test
            (some RunStatus.Failed) (some (panicMessage (some "xyz")))]
      ∧ (runSeq false false (([⟨"a", fun _ => .normal none, false⟩] : List CaseSpec)
            ++ ⟨"p", fun _ => .panics (some "xyz"), false⟩ :: []) true).1.filter
          (fun e => !isCaseEventOf "p" e)
        = (runSeq false false (([⟨"a", fun _ => .normal none, false⟩] : List CaseSpec)
            ++ []) true).1
      ∧ (runSeq false false (([⟨"a", fun _ => .normal none, false⟩] : List CaseSpec)
            ++ ⟨"p", fun _ => .panics (some "xyz"), false⟩ :: []) true).2
        = false) := by
  refine ⟨by decide, ?_⟩
  exact panic_caught_and_isolated false (some "xyz") "p" false
    [⟨"a", fun _ => .normal none, false⟩] [] (by decide)

/-! ### Claim C2 -/

theorem countP_failedComplete_runCaseEvents (runIg : Bool) (c : CaseSpec)
    (h : runCaseSuccess runIg c = true) :
    (runCaseEvents runIg c).countP isFailedComplete = 0 := by
  have hst : runCaseStatus runIg c ≠ some RunStatus.Failed := by
    intro he
    rw [runCaseSuccess, he] at h
    simp at h
  show List.countP isFailedComplete
    [Event.CaseStart c.name,
     Event.CaseComplete c.name RunMode.Test (runCaseStatus runIg c)
       (runCaseMessage runIg c)] = 0
  cases hs : runCaseStatus runIg c with
  | none => rfl
  | some st =>
    cases st with
    | Ignored => rfl
    | Failed => exact absurd hs hst

theorem countP_failed_singleton_le (e : Event) :
    List.countP isTripFailed [e] ≤ 1 := by
  rw [List.countP_cons, List.countP_nil]
  cases isTripFailed e <;> simp

theorem suiteWrap_failedComplete (E : List Event)
    (h : E.dropLast.countP isTripFailed = 0) :
    ((Event.SuiteStart :: E ++ [Event.SuiteComplete]).dropLast.dropLast).countP
        isTripFailed = 0
    ∧ (Event.SuiteStart :: E ++ [Event.SuiteComplete]).countP isTripFailed ≤ 1 := by
  have hd1 : (Event.SuiteStart :: E ++ [Event.SuiteComplete]).dropLast
      = Event.SuiteStart :: E := by
    show ((Event.SuiteStart :: E) ++ [Event.SuiteComplete]).dropLast = _
    exact List.dropLast_concat
  constructor
  · rw [hd1]
    cases E with
    | nil => rfl
    | cons a X =>
      rw [List.dropLast_cons₂, List.countP_cons_of_neg _ _ (by decide)]
      exact h
  · have hss : isTripFailed Event.SuiteStart = false := rfl
    have hsc : isTripFailed Event.SuiteComplete = false := rfl
    have hc1 : (Event.SuiteStart :: E ++ [Event.SuiteComplete]).countP isTripFailed
        = E.countP isTripFailed := by
      rw [List.countP_append, List.countP_cons, List.countP_cons, List.countP_nil,
        hss, hsc]
      simp
    rw [hc1]
    by_cases hne : E = []
    · rw [hne]
      simp
    · rw [← List.dropLast_concat_getLast hne, List.countP_append, h, Nat.zero_add]
      exact countP_failed_singleton_le _

theorem runSeq_failFast_dropLast (runIg : Bool) :
    ∀ l : List CaseSpec,
      (runSeq runIg true l true).1.dropLast.countP isFailedComplete = 0 := by
  intro l
  induction l with
  | nil => rfl
  | cons c rest ih =>
    cases hc : runCaseSuccess runIg c with
    | false =>
      have hstep : runSeq runIg true (c :: rest) true = (runCaseEvents runIg c, false) := by
        simp [runSeq, hc]
      rw [hstep]
      rfl
    | true =>
      cases hpair : runSeq runIg true rest true with
      | mk evs s2 =>
        have hstep : runSeq runIg true (c :: rest) true
            = (runCaseEvents runIg c ++ evs, s2) := by
          simp [runSeq, hc, hpair]
        rw [hstep]
        have hih : evs.dropLast.countP isFailedComplete = 0 := by
          rw [hpair] at ih
          exact ih
        have hA : (runCaseEvents runIg c).countP isFailedComplete = 0 :=
          countP_failedComplete_runCaseEvents runIg c hc
        by_cases hevs : evs = []
        · show ((runCaseEvents runIg c ++ evs).dropLast).countP isFailedComplete = 0
          rw [hevs, List.append_nil]
          exact Nat.le_zero.mp (le_trans
            (List.Sublist.countP_le _ (List.dropLast_sublist _)) (le_of_eq hA))
        · show ((runCaseEvents runIg c ++ evs).dropLast).countP isFailedComplete = 0
          rw [List.dropLast_append_of_ne_nil _ hevs, List.countP_append, hA, hih]

theorem concLoop_failFast_dropLast (runIg : Bool) (threads : Nat)
    (sched : Nat → Nat) (race : Nat → Bool) (cases : List CaseSpec)
    (hnd : (cases.map CaseSpec.name).Nodup) (hth : 1 ≤ threads) :
    ∀ (fuel : Nat) (s : CState), Inv runIg cases s →
      s.emitted.countP isTripFailed = 0 →
      (concLoop runIg true threads sched race fuel s).emitted.dropLast.countP
        isTripFailed = 0 := by
  intro fuel
  induction fuel with
  | zero =>
    intro s hInv hP
    show s.emitted.dropLast.countP isTripFailed = 0
    exact Nat.le_zero.mp (le_trans
      (List.Sublist.countP_le _ (List.dropLast_sublist _)) (le_of_eq hP))
  | succ fuel ih =>
    intro s hInv hP
    by_cases hterm : (s.workers.isEmpty && s.remaining.isEmpty) = true
    · have hstep : concLoop runIg true threads sched race (fuel + 1) s = s := by
        simp only [concLoop, hterm, if_true]
      rw [hstep]
      exact Nat.le_zero.mp (le_trans
        (List.Sublist.countP_le _ (List.dropLast_sublist _)) (le_of_eq hP))
    · obtain ⟨hInv1, hMeq, hprog⟩ := launchLoop_spec runIg threads cases hnd s.remaining
        s.workers s.emitted s.syncS s.success hInv
      have hMpos : 1 ≤ measureM s := measure_pos_of_not_terminal runIg cases s hInv hterm
      have hM1 : measureM ⟨(launchLoop runIg threads s.remaining s.workers).1,
          (launchLoop runIg threads s.remaining s.workers).2, s.emitted, s.syncS,
          s.success⟩ = measureM s := by
        simp only [measureM]
        exact hMeq
      have hwne : (launchLoop runIg threads s.remaining s.workers).2 ≠ [] := by
        intro hempty
        have hrem0 := hprog hth hempty
        have hM0 : measureM ⟨(launchLoop runIg threads s.remaining s.workers).1,
            (launchLoop runIg threads s.remaining s.workers).2, s.emitted, s.syncS,
            s.success⟩ = 0 := by
          simp only [measureM, hempty, hrem0]
          rfl
        omega
      obtain ⟨hInv2, hM2, hrem2, hex, hmono2, hbrk2⟩ := recvStep_spec runIg
        true cases hnd (sched fuel) (race fuel)
        ⟨(launchLoop runIg threads s.remaining s.workers).1,
         (launchLoop runIg threads s.remaining s.workers).2, s.emitted, s.syncS,
         s.success⟩ hInv1 hwne
      obtain ⟨ev, hev, htrip⟩ := recvStep_trip runIg true cases (sched fuel) (race fuel)
        ⟨(launchLoop runIg threads s.remaining s.workers).1,
         (launchLoop runIg threads s.remaining s.workers).2, s.emitted, s.syncS,
         s.success⟩ hInv1 hwne
      have hstep : concLoop runIg true threads sched race (fuel + 1) s
          = if (recvStep true (sched fuel) (race fuel)
                ⟨(launchLoop runIg threads s.remaining s.workers).1,
                 (launchLoop runIg threads s.remaining s.workers).2, s.emitted, s.syncS,
                 s.success⟩).2
            then (recvStep true (sched fuel) (race fuel)
                ⟨(launchLoop runIg threads s.remaining s.workers).1,
                 (launchLoop runIg threads s.remaining s.workers).2, s.emitted, s.syncS,
                 s.success⟩).1
            else concLoop runIg true threads sched race fuel
              (recvStep true (sched fuel) (race fuel)
                ⟨(launchLoop runIg threads s.remaining s.workers).1,
                 (launchLoop runIg threads s.remaining s.workers).2, s.emitted, s.syncS,
                 s.success⟩).1 := by
        simp only [concLoop]
        rw [if_neg hterm]
      rw [hstep]
      by_cases hbr : (recvStep true (sched fuel) (race fuel)
          ⟨(launchLoop runIg threads s.remaining s.workers).1,
           (launchLoop runIg threads s.remaining s.workers).2, s.emitted, s.syncS,
           s.success⟩).2 = true
      · rw [if_pos hbr]
        show ((recvStep true (sched fuel) (race fuel)
            ⟨(launchLoop runIg threads s.remaining s.workers).1,
             (launchLoop runIg threads s.remaining s.workers).2, s.emitted, s.syncS,
             s.success⟩).1.emitted.dropLast).countP isTripFailed = 0
        rw [hev]
        show ((s.emitted ++ [ev]).dropLast).countP isTripFailed = 0
        rw [List.dropLast_concat]
        exact hP
      · rw [if_neg hbr]
        have hevnf : isTripFailed ev = false := by
          by_contra hx
          have hx2 : isTripFailed ev = true := by
            cases hy : isTripFailed ev
            · exact absurd hy hx
            · rfl
          have hsf := htrip hx2
          exact hbr (by rw [hbrk2, hsf]; rfl)
        have hP2 : (recvStep true (sched fuel) (race fuel)
            ⟨(launchLoop runIg threads s.remaining s.workers).1,
             (launchLoop runIg threads s.remaining s.workers).2, s.emitted, s.syncS,
             s.success⟩).1.emitted.countP isTripFailed = 0 := by
          rw [hev]
          show List.countP isTripFailed (s.emitted ++ [ev]) = 0
          rw [List.countP_append, hP, List.countP_cons, List.countP_nil, hevnf]
          simp
        exact ih _ hInv2 hP2

/-- **C2** (counterexample to the spec's draining sentence): with two cases
and two worker threads, after case `a` fails the coordinator breaks out of
its loop at once; the already-launched worker for case `b` is still in
flight in the final state and none of its events — neither `CaseStart` nor
`CaseComplete` — is ever reported to the notifier. -/
theorem fail_fast_drops_inflight_completion :
    (run { failFast := true, testThreads := some 2 } (fun _ => 0) (fun _ => false) 4
        [⟨"a", fun _ => .normal (some (.failed "boom")), false⟩,
         ⟨"b", fun _ => .normal none, false⟩]).events
      = [Event.SuiteStart, Event.CaseStart "a",
         Event.CaseComplete "a" RunMode.Test (some RunStatus.Failed) (some "boom"),
         Event.SuiteComplete]
    ∧ ((run { failFast := true, testThreads := some 2 } (fun _ => 0) (fun _ => false) 4
        [⟨"a", fun _ => .normal (some (.failed "boom")), false⟩,
         ⟨"b", fun _ => .normal none, false⟩]).final.workers.map Worker.wname) = ["b"]
    ∧ (run { failFast := true, testThreads := some 2 } (fun _ => 0) (fun _ => false) 4
        [⟨"a", fun _ => .normal (some (.failed "boom")), false⟩,
         ⟨"b", fun _ => .normal none, false⟩]).events.filter (isCaseEventOf "b") = [] :=
  ⟨rfl, rfl, rfl⟩

/-- **C2** (amended): with `fail_fast` set the coordinator breaks out of its
loop in the very iteration it observes a failure reported by `run_case`
itself, so a `Failed` `CaseComplete` that is not a join rewrite (i.e. whose
message is anything other than the rewrite's fixed
`"panicked after reporting success"`) can only be the last event before
`SuiteComplete`, and there is at most one such event in the whole stream.
Join-rewritten completions are exempt because the panicking thread already
stored its `run_case` pass into the shared flag, so they never trip
`fail_fast` and may sit mid-stream.  Completions of other already-launched
workers are not drained after the break
(`fail_fast_drops_inflight_completion`). -/
theorem fail_fast_failure_is_final_event (opts : TestOpts) (sched : Nat → Nat)
    (race : Nat → Bool) (fuel : Nat) (cases : List CaseSpec)
    (hff : opts.failFast = true)
    (hnd : (cases.map CaseSpec.name).Nodup) :
    ((run opts sched race fuel cases).events.dropLast.dropLast).countP
        isTripFailed = 0
    ∧ (run opts sched race fuel cases).events.countP isTripFailed ≤ 1 := by
  by_cases hth : 1 < opts.testThreads.getD 1
  · have hevents : (run opts sched race fuel cases).events
        = Event.SuiteStart :: (concLoop (runIgnoredFlag opts.runIgnored) opts.failFast
            (opts.testThreads.getD 1) sched race fuel ⟨cases, [], [], true, true⟩).emitted
          ++ [Event.SuiteComplete] := by
      show (if 1 < opts.testThreads.getD 1 then _ else _ : RunOutput).events = _
      rw [if_pos hth]
    rw [hevents, hff]
    exact suiteWrap_failedComplete _
      (concLoop_failFast_dropLast (runIgnoredFlag opts.runIgnored)
        (opts.testThreads.getD 1) sched race cases hnd (le_of_lt hth) fuel
        ⟨cases, [], [], true, true⟩ (Inv_init _ cases) rfl)
  · have hevents : (run opts sched race fuel cases).events
        = Event.SuiteStart :: (runSeq (runIgnoredFlag opts.runIgnored) opts.failFast
            cases true).1 ++ [Event.SuiteComplete] := by
      show (if 1 < opts.testThreads.getD 1 then _ else _ : RunOutput).events = _
      rw [if_neg hth]
    rw [hevents, hff]
    refine suiteWrap_failedComplete _ ?_
    have h1 := runSeq_failFast_dropLast (runIgnoredFlag opts.runIgnored) cases
    have h2 := countP_trip_le_failed
      ((runSeq (runIgnoredFlag opts.runIgnored) true cases true).1.dropLast)
    omega

theorem fail_fast_failure_is_final_event_witness :
    ({ failFast := true, testThreads := some 2 } : TestOpts).failFast = true
    ∧ (([⟨"a", fun _ => .normal (some (.failed "boom")), false⟩,
         ⟨"b", fun _ => .normal none, true⟩] : List CaseSpec).map CaseSpec.name).Nodup
    ∧ (((run { failFast := true, testThreads := some 2 } (fun _ => 0) (fun _ => false) 4
          [⟨"a", fun _ => .normal (some (.failed "boom")), false⟩,
           ⟨"b", fun _ => .normal none, true⟩]).events.dropLast.dropLast).countP
        isTripFailed = 0
      ∧ (run { failFast := true, testThreads := some 2 } (fun _ => 0) (fun _ => false) 4
          [⟨"a", fun _ => .normal (some (.failed "boom")), false⟩,
           ⟨"b", fun _ => .normal none, true⟩]).events.countP isTripFailed ≤ 1) := by
  refine ⟨rfl, by decide, ?_⟩
  exact fail_fast_failure_is_final_event _ (fun _ => 0) (fun _ => false) 4 _ rfl (by decide)

end Libtest
